import Mathlib

set_option autoImplicit false

/-
Verification of the incrementally-rehashing hash table (dictionary) of this
repository.  The repository ships the header src/src/dict.h (struct layouts,
macros such as dictSize/dictIsRehashing, and the public API declarations);
the function bodies (dict.c) are not part of src/, so every operation body
below is modelled from the specification (spec.md sections 4.2 to 4.5), while
structure fields, macros and constants are taken from the header.

Modelling conventions:
  - keys and values are natural numbers; an entry is a pair of a key and an
    optional value (none models the "unset value" of a freshly linked entry);
  - a bucket table is a list of chains together with the stored used counter
    (the size field of the C struct is the list length, sizemask = size - 1);
  - the hash function of the type descriptor is an explicit argument of every
    operation; key comparison is the identity fallback of dictCompareKeys;
  - bucket index hash(k) % size equals the C expression hash(k) & sizemask
    because table sizes are powers of two;
  - the process-wide resize-enabled flag is carried as a field of the dict;
  - the wall clock of dictRehashMilliseconds is abstracted as an oracle
    telling for each loop iteration whether the deadline has passed.
-/

/-- Reversal of the low `b` bits of a natural number: bit `i` of the result is
bit `b-1-i` of the input.  This is the reversed binary counter of the
dictScan cursor (spec section 4.5). -/
def bitRev : Nat → Nat → Nat
  | 0, _ => 0
  | b + 1, x => x % 2 * 2 ^ b + bitRev b (x / 2)

/-- Modelled from the spec: the cursor update of dictScan (dict.c is not in
src/).  One scan call at a table of 2 ^ b buckets visits the bucket selected
by the cursor and then advances the cursor by incrementing it as a
bit-reversed integer bounded by the table mask; on wrap-around the cursor
becomes 0, ending the scan.  During a rehash the call uses the smaller
table's exponent `b`: it additionally visits the corresponding larger-table
buckets and the net cursor update is the same reverse increment. -/
def scanStep (b : Nat) (v : Nat) : Nat :=
  let r := bitRev b (v % 2 ^ b) + 1
  if r = 2 ^ b then 0 else bitRev b r

/-- Modelled from the spec: whether a scan trace visits an entry.  `bs` lists
the effective table exponent of each successive dictScan call (the adversary
may resize the table between calls), `v` is the cursor threaded through the
calls and `e` abstracts an entry by its hash value.  A call with cursor `v`
at exponent `b` hands the visitor every entry whose bucket index
`e % 2 ^ b` equals `v % 2 ^ b`, in whichever of the two tables it lives. -/
def scanVisited : List Nat → Nat → Nat → Bool
  | [], _, _ => false
  | b :: bs, v, e => (e % 2 ^ b == v % 2 ^ b) || scanVisited bs (scanStep b v) e

/-- Modelled from the spec: the cursor value returned by the last call of a
scan trace (cursor 0 terminates a complete scan). -/
def scanTrace : List Nat → Nat → Nat
  | [], v => v
  | b :: bs, v => scanTrace bs (scanStep b v)

/-- An entry holds one key and an optional value; none models the unset value
of a freshly linked entry (dictEntry of src/src/dict.h, values restricted to
the generic pointer member of the union). -/
abbrev dictEntry := Nat × Option Nat

/-- One bucket table: the chain array plus the stored used counter
(dictht of src/src/dict.h; size is the length of the table list). -/
structure dictht where
  table : List (List dictEntry)
  used : Nat
deriving DecidableEq

/-- Size field of the C struct: number of buckets. -/
def dictht.size (t : dictht) : Nat := t.table.length

/-- A bucket table in its just-constructed state (_dictReset). -/
def dictht.empty : dictht := ⟨[], 0⟩

/-- The dictionary: two bucket tables, the rehash cursor (-1 when no rehash is
in progress) and the live iterator counter (dict of src/src/dict.h).  The
process-wide resize-enabled flag is carried here as canResize. -/
structure dict where
  ht0 : dictht
  ht1 : dictht
  rehashidx : Int
  iterators : Nat
  canResize : Bool
deriving DecidableEq

/-- Initial size of every hash table (src/src/dict.h line 143). -/
def DICT_HT_INITIAL_SIZE : Nat := 4

/-- Reported number of entries: sum of the used counts of both tables
(dictSize macro, src/src/dict.h line 189). -/
def dictSize (d : dict) : Nat := d.ht0.used + d.ht1.used

/-- Total bucket count of both tables (dictSlots macro, src/src/dict.h
line 188). -/
def dictSlots (d : dict) : Nat := d.ht0.size + d.ht1.size

/-- Whether an incremental rehash is in progress (dictIsRehashing macro,
src/src/dict.h line 190). -/
def dictIsRehashing (d : dict) : Bool := d.rehashidx != -1

/-- Modelled from the spec: dictCreate (dict.c is not in src/).  An empty
dictionary; the primary table is allocated lazily on first insert. -/
def dictCreate (cr : Bool) : dict := ⟨dictht.empty, dictht.empty, -1, 0, cr⟩

/-- All entries of a bucket table, chain by chain. -/
def htEntries (t : dictht) : List dictEntry := t.table.flatten

/-- All entries of the dictionary, primary table first. -/
def dict.entries (d : dict) : List dictEntry := htEntries d.ht0 ++ htEntries d.ht1

/-- All keys of the dictionary. -/
def dict.keys (d : dict) : List Nat := d.entries.map Prod.fst

/-- Bucket index of a key: hash(k) % size, which is hash(k) & sizemask of the
C code since sizes are powers of two. -/
def bucketIdx (hash : Nat → Nat) (t : dictht) (k : Nat) : Nat :=
  hash k % t.table.length

/-- Lookup of a key inside one bucket table: scan the chain of the key's
bucket for the first entry with an equal key. -/
def htFind (hash : Nat → Nat) (t : dictht) (k : Nat) : Option dictEntry :=
  (t.table.getD (bucketIdx hash t k) []).find? (fun e => e.1 == k)

/-- Modelled from the spec: dictFind (dict.c is not in src/).  Probes the
primary table's bucket first and, only while rehashing, the secondary
table's bucket for the same key (spec section 4.2: failing to check both
tables while rehashing is a correctness bug). -/
def dictFind (hash : Nat → Nat) (d : dict) (k : Nat) : Option dictEntry :=
  match htFind hash d.ht0 k with
  | some e => some e
  | none => if dictIsRehashing d then htFind hash d.ht1 k else none

/-- Modelled from the spec: dictFetchValue (dict.c is not in src/): the value
of the entry found by dictFind. -/
def dictFetchValue (hash : Nat → Nat) (d : dict) (k : Nat) : Option Nat :=
  match dictFind hash d k with
  | some e => e.2
  | none => none

/-- Prepend one entry to the chain of its bucket in the given table
(the insertion always prepends to the chain head, spec section 4.1). -/
def htInsertEntry (hash : Nat → Nat) (t : dictht) (e : dictEntry) : dictht :=
  let i := hash e.1 % t.table.length
  ⟨t.table.set i (e :: t.table.getD i []), t.used + 1⟩

/-- Modelled from the spec: migration of one primary-table bucket during
rehashing (spec section 4.3): every entry of the chain is unlinked,
re-hashed against the secondary table's mask and relinked at the head of the
corresponding secondary chain; the rehash cursor advances. -/
def migrateBucket (hash : Nat → Nat) (d : dict) (i : Nat) : dict :=
  let chain := d.ht0.table.getD i []
  { d with
    ht0 := ⟨d.ht0.table.set i [], d.ht0.used - chain.length⟩,
    ht1 := chain.foldl (htInsertEntry hash) d.ht1,
    rehashidx := d.rehashidx + 1 }

/-- Modelled from the spec: the bucket loop of dictRehash (dict.c is not in
src/).  First argument is the remaining total-examination budget (the spec
bounds total buckets examined per call to n*10), second the remaining count
of non-empty buckets to migrate (empty buckets skipped do not count against
it).  Returns the dictionary together with the number of buckets migrated
and the number of buckets examined. -/
def rehashGo (hash : Nat → Nat) : Nat → Nat → dict → dict × Nat × Nat
  | 0, _, d => (d, 0, 0)
  | _ + 1, 0, d => (d, 0, 0)
  | visits + 1, n + 1, d =>
    if d.ht0.used = 0 then (d, 0, 0)
    else
      let i := d.rehashidx.toNat
      if (d.ht0.table.getD i []).isEmpty then
        let r := rehashGo hash visits (n + 1) { d with rehashidx := d.rehashidx + 1 }
        (r.1, r.2.1, r.2.2 + 1)
      else
        let r := rehashGo hash visits n (migrateBucket hash d i)
        (r.1, r.2.1 + 1, r.2.2 + 1)

/-- Modelled from the spec: dictRehash (declared at src/src/dict.h line 217,
body not in src/).  Performs up to `n` bucket migrations with a total
examination budget of n*10; when the primary table has become fully empty
the secondary table replaces it, the old array is dropped and the rehash
cursor resets to -1.  The boolean result is true while more keys remain to
move (the C result 1) and false when rehashing is complete or was not in
progress (the C result 0). -/
def dictRehash (hash : Nat → Nat) (d : dict) (n : Nat) : dict × Bool :=
  if dictIsRehashing d then
    let d1 := (rehashGo hash (10 * n) n d).1
    if d1.ht0.used = 0 then
      ({ d1 with ht0 := d1.ht1, ht1 := dictht.empty, rehashidx := -1 }, false)
    else (d1, true)
  else (d, false)

/-- Modelled from the spec: _dictRehashStep.  The single opportunistic rehash
step mutating operations perform before acting; it does nothing while any
safe iterator is live (iterator counter nonzero, spec section 4.4). -/
def dictRehashStep (hash : Nat → Nat) (d : dict) : dict :=
  if d.iterators = 0 then (dictRehash hash d 1).1 else d

/-- Helper shared by the mutating operations: perform the opportunistic
rehash step only when a rehash is in progress. -/
def stepIfRehashing (hash : Nat → Nat) (d : dict) : dict :=
  if dictIsRehashing d then dictRehashStep hash d else d

/-- Doubling loop of _dictNextPower, with explicit fuel. -/
def nextPowerGo (target : Nat) : Nat → Nat → Nat
  | 0, i => i
  | fuel + 1, i => if target ≤ i then i else nextPowerGo target fuel (2 * i)

/-- Modelled from the spec: _dictNextPower: the smallest power of two that is
at least the requested size, never below DICT_HT_INITIAL_SIZE. -/
def nextPower (n : Nat) : Nat := nextPowerGo n n DICT_HT_INITIAL_SIZE

/-- Modelled from the spec: dictExpand (declared at src/src/dict.h line 194,
body not in src/).  Fails while rehashing or when the requested size is
below the current entry count; allocates the primary table on first use and
otherwise allocates the secondary table and sets the rehash cursor to 0,
beginning migration. -/
def dictExpand (d : dict) (size : Nat) : dict × Bool :=
  if dictIsRehashing d ∨ size < d.ht0.used then (d, false)
  else
    let realsize := nextPower size
    if realsize = d.ht0.size then (d, false)
    else if d.ht0.size = 0 then
      ({ d with ht0 := ⟨List.replicate realsize [], 0⟩ }, true)
    else
      ({ d with ht1 := ⟨List.replicate realsize [], 0⟩, rehashidx := 0 }, true)

/-- Modelled from the spec: _dictExpandIfNeeded (spec section 4.2 expansion
policy): on insertion the table is expanded to 2*used when used >= size and
resizing is enabled, or when the load factor exceeds the 5:1 force bound;
an uninitialized primary table is allocated at DICT_HT_INITIAL_SIZE. -/
def dictExpandIfNeeded (d : dict) : dict :=
  if dictIsRehashing d then d
  else if d.ht0.size = 0 then (dictExpand d DICT_HT_INITIAL_SIZE).1
  else if d.ht0.used ≥ d.ht0.size ∧ (d.canResize ∨ d.ht0.used / d.ht0.size > 5) then
    (dictExpand d (2 * d.ht0.used)).1
  else d

/-- Link a brand new entry into the table currently accepting writes:
the secondary table if rehashing, else the primary (spec section 4.2). -/
def insertNewEntry (hash : Nat → Nat) (d : dict) (k : Nat) (val : Option Nat) : dict :=
  if dictIsRehashing d then { d with ht1 := htInsertEntry hash d.ht1 (k, val) }
  else { d with ht0 := htInsertEntry hash d.ht0 (k, val) }

/-- Modelled from the spec: common body of dictAddRaw and dictAdd.  Performs
the opportunistic rehash step, fails when the key is found via lookup, and
otherwise runs the expansion check and links a new entry carrying `val`. -/
def dictAddRawCore (hash : Nat → Nat) (d : dict) (k : Nat) (val : Option Nat) :
    dict × Option dictEntry :=
  let d1 := stepIfRehashing hash d
  if (dictFind hash d1 k).isSome then (d1, none)
  else
    let d2 := dictExpandIfNeeded d1
    (insertNewEntry hash d2 k val, some (k, val))

/-- Modelled from the spec: dictAddRaw (declared at src/src/dict.h line 196,
body not in src/).  Returns none when the key already exists, otherwise the
newly linked entry with an unset value. -/
def dictAddRaw (hash : Nat → Nat) (d : dict) (k : Nat) : dict × Option dictEntry :=
  dictAddRawCore hash d k none

/-- Modelled from the spec: dictAdd (declared at src/src/dict.h line 195,
body not in src/).  Adds the pair unless the key exists; the boolean result
is true for DICT_OK and false for the DICT_ERR KeyExists failure. -/
def dictAdd (hash : Nat → Nat) (d : dict) (k v : Nat) : dict × Bool :=
  let r := dictAddRawCore hash d k (some v)
  (r.1, r.2.isSome)

/-- Modelled from the spec: dictReplaceRaw, the AddOrGetExisting primitive of
spec section 4.2 (declared at src/src/dict.h line 198, body not in src/):
returns the existing entry without mutation when the key is present, and
otherwise the newly linked entry with an unset value. -/
def dictReplaceRaw (hash : Nat → Nat) (d : dict) (k : Nat) : dict × dictEntry :=
  match dictFind hash d k with
  | some e => (d, e)
  | none =>
    let r := dictAddRaw hash d k
    (r.1, r.2.getD (k, none))

/-- Overwrite the value of the first entry of a chain carrying the key. -/
def chainSetVal (k : Nat) (v : Option Nat) : List dictEntry → List dictEntry
  | [] => []
  | e :: es => if e.1 = k then (k, v) :: es else e :: chainSetVal k v es

/-- Overwrite the stored value of a key inside one bucket table. -/
def htSetVal (hash : Nat → Nat) (t : dictht) (k : Nat) (v : Option Nat) : dictht :=
  ⟨t.table.set (bucketIdx hash t k)
      (chainSetVal k v (t.table.getD (bucketIdx hash t k) [])), t.used⟩

/-- Set the value of the entry holding a key, probing the primary table first
and the secondary only while rehashing; entry identity and key stay put. -/
def dictSetValAt (hash : Nat → Nat) (d : dict) (k : Nat) (v : Option Nat) : dict :=
  if (htFind hash d.ht0 k).isSome then { d with ht0 := htSetVal hash d.ht0 k v }
  else if dictIsRehashing d then { d with ht1 := htSetVal hash d.ht1 k v }
  else d

/-- Modelled from the spec: dictReplace (declared at src/src/dict.h line 197,
body not in src/).  Behaves as Add when the key is absent (result true, one
entry added); when the key exists the new value is set in place (result
false, spec section 4.2). -/
def dictReplace (hash : Nat → Nat) (d : dict) (k v : Nat) : dict × Bool :=
  let r := dictAdd hash d k v
  if r.2 then (r.1, true) else (dictSetValAt hash r.1 k (some v), false)

/-- Unlink the first entry of a chain carrying the key; the boolean reports
whether one was found. -/
def chainRemove (k : Nat) : List dictEntry → List dictEntry × Bool
  | [] => ([], false)
  | e :: es =>
    if e.1 = k then (es, true)
    else
      let r := chainRemove k es
      (e :: r.1, r.2)

/-- Unlink a key from its bucket of one table, maintaining the used count. -/
def htDelete (hash : Nat → Nat) (t : dictht) (k : Nat) : dictht × Bool :=
  let r := chainRemove k (t.table.getD (bucketIdx hash t k) [])
  if r.2 then (⟨t.table.set (bucketIdx hash t k) r.1, t.used - 1⟩, true)
  else (t, false)

/-- Modelled from the spec: dictGenericDelete, shared body of dictDelete and
dictDeleteNoFree (declared at src/src/dict.h lines 199-200, bodies not in
src/).  Performs the opportunistic rehash step, then unlinks the entry from
the primary table or, only while rehashing, from the secondary; the boolean
result is true for DICT_OK and false for the DICT_ERR KeyNotFound failure.
Freeing of key and value has no observable effect in this model, so both
public variants share this body. -/
def dictGenericDelete (hash : Nat → Nat) (d : dict) (k : Nat) : dict × Bool :=
  let d1 := stepIfRehashing hash d
  let r0 := htDelete hash d1.ht0 k
  if r0.2 then ({ d1 with ht0 := r0.1 }, true)
  else if dictIsRehashing d1 then
    let r1 := htDelete hash d1.ht1 k
    if r1.2 then ({ d1 with ht1 := r1.1 }, true) else (d1, false)
  else (d1, false)

/-- Modelled from the spec: dictDelete, the freeing variant. -/
def dictDelete (hash : Nat → Nat) (d : dict) (k : Nat) : dict × Bool :=
  dictGenericDelete hash d k

/-- Modelled from the spec: dictDeleteNoFree, the non-freeing variant. -/
def dictDeleteNoFree (hash : Nat → Nat) (d : dict) (k : Nat) : dict × Bool :=
  dictGenericDelete hash d k

/-- Modelled from the spec: creation of a safe iterator increments the
dictionary's live iterator counter (spec section 4.4); only the counter
effect is modelled. -/
def dictGetSafeIterator (d : dict) : dict :=
  { d with iterators := d.iterators + 1 }

/-- Iterated single-bucket rehash steps, dictRehash with n = 1 applied m
times. -/
def rehashNsteps (hash : Nat → Nat) (m : Nat) (d : dict) : dict :=
  Nat.iterate (fun x => (dictRehash hash x 1).1) m d

/-- Modelled from the spec: the loop of dictRehashMilliseconds (declared at
src/src/dict.h line 218, body not in src/).  Each iteration performs one
full dictRehash increment with n = 100 and only between increments consults
the clock oracle `expired`; the loop also stops when dictRehash reports the
migration complete.  The second result counts the increments performed. -/
def dictRehashMsGo (hash : Nat → Nat) (expired : Nat → Bool) :
    Nat → dict → Nat → dict × Nat
  | 0, d, i => (d, i)
  | fuel + 1, d, i =>
    let r := dictRehash hash d 100
    if r.2 = false then (r.1, i + 1)
    else if expired i then (r.1, i + 1)
    else dictRehashMsGo hash expired fuel r.1 (i + 1)

/-- Modelled from the spec: dictRehashMilliseconds with the wall clock
abstracted as the oracle `expired` and the unbounded while loop bounded by
explicit fuel. -/
def dictRehashMilliseconds (hash : Nat → Nat) (expired : Nat → Bool)
    (d : dict) (fuel : Nat) : dict × Nat :=
  dictRehashMsGo hash expired fuel d 0

/-- Well-formedness of one bucket table: every entry sits in the bucket its
hash selects, and the stored used counter equals the real entry count. -/
def htWF (hash : Nat → Nat) (t : dictht) : Prop :=
  (∀ i < t.table.length, ∀ e ∈ t.table.getD i [], hash e.1 % t.table.length = i)
  ∧ t.used = (htEntries t).length

/-- Well-formedness of a dictionary: both tables are well formed, keys are
unique across both tables, the secondary table exists exactly while a
rehash is in progress, and the rehash cursor is never negative then. -/
def dictWF (hash : Nat → Nat) (d : dict) : Prop :=
  htWF hash d.ht0 ∧ htWF hash d.ht1 ∧ d.keys.Nodup
  ∧ (d.rehashidx = -1 → d.ht1.table = [])
  ∧ (d.rehashidx ≠ -1 → 0 ≤ d.rehashidx ∧ 0 < d.ht1.table.length)

instance htWF.dec (hash : Nat → Nat) (t : dictht) : Decidable (htWF hash t) := by
  unfold htWF; infer_instance

instance dictWF.dec (hash : Nat → Nat) (d : dict) : Decidable (dictWF hash d) := by
  unfold dictWF; infer_instance

/-- One step of the operation sequences of the accounting property: the
mutating public operations plus explicit rehash progress. -/
inductive dictOp where
  | add (k v : Nat)
  | del (k : Nat)
  | repl (k v : Nat)
  | rehash (n : Nat)
deriving DecidableEq

/-- Run a sequence of operations, counting successfully added and
successfully deleted entries (a Replace of an absent key counts as an
add, matching the spec's phrase "entries added"). -/
def runOps (hash : Nat → Nat) : List dictOp → dict × Nat × Nat → dict × Nat × Nat
  | [], s => s
  | op :: ops, (d, a, x) =>
    match op with
    | .add k v =>
      let r := dictAdd hash d k v
      runOps hash ops (r.1, a + (if r.2 then 1 else 0), x)
    | .del k =>
      let r := dictDelete hash d k
      runOps hash ops (r.1, a, x + (if r.2 then 1 else 0))
    | .repl k v =>
      let r := dictReplace hash d k v
      runOps hash ops (r.1, a + (if r.2 then 1 else 0), x)
    | .rehash n =>
      runOps hash ops ((dictRehash hash d n).1, a, x)

theorem bitRev_lt (b x : Nat) : bitRev b x < 2 ^ b := by
  induction b generalizing x with
  | zero => simp [bitRev]
  | succ b ih =>
    have h1 : x % 2 ≤ 1 := by omega
    have h2 := ih (x / 2)
    have h3 : x % 2 * 2 ^ b ≤ 2 ^ b := by
      calc x % 2 * 2 ^ b ≤ 1 * 2 ^ b := Nat.mul_le_mul_right _ h1
        _ = 2 ^ b := Nat.one_mul _
    have hdef : bitRev (b + 1) x = x % 2 * 2 ^ b + bitRev b (x / 2) := rfl
    rw [hdef, pow_succ]
    calc x % 2 * 2 ^ b + bitRev b (x / 2)
        < x % 2 * 2 ^ b + 2 ^ b := Nat.add_lt_add_left h2 _
      _ ≤ 2 ^ b + 2 ^ b := Nat.add_le_add_right h3 _
      _ = 2 ^ b * 2 := by ring

theorem bitRev_mod (b x : Nat) : bitRev b (x % 2 ^ b) = bitRev b x := by
  induction b generalizing x with
  | zero => rfl
  | succ b ih =>
    have h1 : x % 2 ^ (b + 1) % 2 = x % 2 := Nat.mod_mod_of_dvd x ⟨2 ^ b, by ring⟩
    have h2 : x % 2 ^ (b + 1) / 2 = x / 2 % 2 ^ b := by
      have e : (2 : Nat) ^ (b + 1) = 2 * 2 ^ b := by ring
      rw [e, Nat.mod_mul_right_div_self]
    show x % 2 ^ (b + 1) % 2 * 2 ^ b + bitRev b (x % 2 ^ (b + 1) / 2)
        = x % 2 * 2 ^ b + bitRev b (x / 2)
    rw [h1, h2, ih]

theorem bitRev_zero_eq (b : Nat) : bitRev b 0 = 0 := by
  induction b with
  | zero => rfl
  | succ b ih =>
    show 0 % 2 * 2 ^ b + bitRev b (0 / 2) = 0
    simpa using ih

theorem bitRev_one (x : Nat) : bitRev 1 x = x % 2 := by
  show x % 2 * 2 ^ 0 + bitRev 0 (x / 2) = x % 2
  simp [bitRev]

theorem bitRev_decomp (k b x : Nat) :
    bitRev (b + k) x = bitRev b x * 2 ^ k + bitRev k (x / 2 ^ b) := by
  induction b generalizing x with
  | zero =>
    rw [Nat.zero_add]
    show bitRev k x = bitRev 0 x * 2 ^ k + bitRev k (x / 2 ^ 0)
    simp [bitRev]
  | succ b ih =>
    have e1 : b + 1 + k = b + k + 1 := by omega
    rw [e1, show bitRev (b + k + 1) x = x % 2 * 2 ^ (b + k) + bitRev (b + k) (x / 2) from rfl,
      ih (x / 2), show bitRev (b + 1) x = x % 2 * 2 ^ b + bitRev b (x / 2) from rfl]
    have e2 : x / 2 / 2 ^ b = x / 2 ^ (b + 1) := by
      rw [Nat.div_div_eq_div_mul]
      congr 1
      ring
    rw [e2]
    ring

theorem bitRev_bitRev (b x : Nat) : bitRev b (bitRev b x) = x % 2 ^ b := by
  induction b generalizing x with
  | zero => simp [bitRev, Nat.mod_one]
  | succ b ih =>
    have hr : bitRev b (x / 2) < 2 ^ b := bitRev_lt b (x / 2)
    have hz : bitRev (b + 1) x = x % 2 * 2 ^ b + bitRev b (x / 2) := rfl
    have hmod : (x % 2 * 2 ^ b + bitRev b (x / 2)) % 2 ^ b = bitRev b (x / 2) := by
      rw [Nat.mul_comm (x % 2) (2 ^ b), Nat.mul_add_mod, Nat.mod_eq_of_lt hr]
    have hdiv : (x % 2 * 2 ^ b + bitRev b (x / 2)) / 2 ^ b = x % 2 := by
      rw [Nat.mul_comm, Nat.mul_add_div (pow_pos (by norm_num) b), Nat.div_eq_of_lt hr]
      omega
    have key : bitRev (b + 1) (bitRev (b + 1) x)
        = bitRev b (bitRev b (x / 2)) * 2 + x % 2 := by
      rw [hz, bitRev_decomp 1 b, hdiv, bitRev_one,
        ← bitRev_mod b (x % 2 * 2 ^ b + bitRev b (x / 2)), hmod]
      have hx : x % 2 % 2 = x % 2 := by omega
      rw [hx]
      ring
    rw [key, ih (x / 2)]
    have hm : x % (2 * 2 ^ b) = x % 2 + 2 * (x / 2 % 2 ^ b) := Nat.mod_mul
    have e : (2 : Nat) ^ (b + 1) = 2 * 2 ^ b := by ring
    rw [e]
    omega

theorem bitRev_inj (b x y : Nat) (h : bitRev b x = bitRev b y) :
    x % 2 ^ b = y % 2 ^ b := by
  rw [← bitRev_bitRev b x, h, bitRev_bitRev]

theorem bitRev_cross (b bp v e : Nat) (hv : v < 2 ^ b)
    (hlt : bitRev bp (e % 2 ^ bp) < bitRev bp (v % 2 ^ bp)) :
    bitRev b (e % 2 ^ b) < bitRev b v := by
  rcases Nat.le_total b bp with hle | hle
  · obtain ⟨k, rfl⟩ : ∃ k, bp = b + k := ⟨bp - b, by omega⟩
    have hv2 : v % 2 ^ (b + k) = v :=
      Nat.mod_eq_of_lt (lt_of_lt_of_le hv (Nat.pow_le_pow_right (by norm_num) (by omega)))
    rw [hv2, bitRev_decomp k b v, Nat.div_eq_of_lt hv, bitRev_zero_eq,
      bitRev_decomp k b (e % 2 ^ (b + k))] at hlt
    have he : bitRev b (e % 2 ^ (b + k)) = bitRev b (e % 2 ^ b) := by
      rw [← bitRev_mod b (e % 2 ^ (b + k)),
        Nat.mod_mod_of_dvd e (pow_dvd_pow 2 (by omega))]
    rw [he, Nat.add_zero] at hlt
    have h1 : bitRev b (e % 2 ^ b) * 2 ^ k < bitRev b v * 2 ^ k :=
      lt_of_le_of_lt (Nat.le_add_right _ _) hlt
    exact lt_of_mul_lt_mul_right h1 (Nat.zero_le _)
  · obtain ⟨k, rfl⟩ : ∃ k, b = bp + k := ⟨b - bp, by omega⟩
    rw [bitRev_decomp k bp (e % 2 ^ (bp + k)), bitRev_decomp k bp v]
    have he : bitRev bp (e % 2 ^ (bp + k)) = bitRev bp (e % 2 ^ bp) := by
      rw [← bitRev_mod bp (e % 2 ^ (bp + k)),
        Nat.mod_mod_of_dvd e (pow_dvd_pow 2 (by omega))]
    rw [he]
    rw [bitRev_mod bp v] at hlt
    have ht : bitRev k (e % 2 ^ (bp + k) / 2 ^ bp) < 2 ^ k := bitRev_lt _ _
    calc bitRev bp (e % 2 ^ bp) * 2 ^ k + bitRev k (e % 2 ^ (bp + k) / 2 ^ bp)
        < bitRev bp (e % 2 ^ bp) * 2 ^ k + 2 ^ k := Nat.add_lt_add_left ht _
      _ = (bitRev bp (e % 2 ^ bp) + 1) * 2 ^ k := by ring
      _ ≤ bitRev bp v * 2 ^ k := Nat.mul_le_mul_right _ hlt
      _ ≤ bitRev bp v * 2 ^ k + bitRev k (v / 2 ^ bp) := Nat.le_add_right _ _

theorem scanStep_lt (b v : Nat) : scanStep b v < 2 ^ b := by
  show (if bitRev b (v % 2 ^ b) + 1 = 2 ^ b then 0
    else bitRev b (bitRev b (v % 2 ^ b) + 1)) < 2 ^ b
  split
  · exact pow_pos (by norm_num) b
  · exact bitRev_lt _ _

theorem scanStep_zero_rev (b v : Nat) (h : scanStep b v = 0) :
    bitRev b (v % 2 ^ b) + 1 = 2 ^ b := by
  by_contra hne
  have h2 : scanStep b v = bitRev b (bitRev b (v % 2 ^ b) + 1) := by
    show (if bitRev b (v % 2 ^ b) + 1 = 2 ^ b then 0
      else bitRev b (bitRev b (v % 2 ^ b) + 1)) = _
    rw [if_neg hne]
  rw [h2] at h
  have h3 := bitRev_inj b (bitRev b (v % 2 ^ b) + 1) 0 (by rw [h, bitRev_zero_eq])
  have hlt := bitRev_lt b (v % 2 ^ b)
  have hrlt : bitRev b (v % 2 ^ b) + 1 < 2 ^ b := by omega
  rw [Nat.mod_eq_of_lt hrlt, Nat.zero_mod] at h3
  omega

theorem scanStep_rev_succ (b v : Nat) (h : scanStep b v ≠ 0) :
    bitRev b (scanStep b v) = bitRev b (v % 2 ^ b) + 1 := by
  have hne : bitRev b (v % 2 ^ b) + 1 ≠ 2 ^ b := by
    intro hc
    apply h
    show (if bitRev b (v % 2 ^ b) + 1 = 2 ^ b then 0
      else bitRev b (bitRev b (v % 2 ^ b) + 1)) = 0
    rw [if_pos hc]
  have h2 : scanStep b v = bitRev b (bitRev b (v % 2 ^ b) + 1) := by
    show (if bitRev b (v % 2 ^ b) + 1 = 2 ^ b then 0
      else bitRev b (bitRev b (v % 2 ^ b) + 1)) = _
    rw [if_neg hne]
  have hlt := bitRev_lt b (v % 2 ^ b)
  rw [h2, bitRev_bitRev, Nat.mod_eq_of_lt (by omega)]

theorem scan_cover_aux (bs : List Nat) :
    ∀ v e : Nat, bs ≠ [] → scanTrace bs v = 0 →
      scanVisited bs v e = true ∨ ∃ b, bitRev b (e % 2 ^ b) < bitRev b (v % 2 ^ b) := by
  induction bs with
  | nil => intro v e hne _; exact absurd rfl hne
  | cons b bs ih =>
    intro v e _ htr
    by_cases hbs : bs = []
    · subst hbs
      have h0 : scanStep b v = 0 := htr
      have hfull := scanStep_zero_rev b v h0
      by_cases he : e % 2 ^ b = v % 2 ^ b
      · left
        simp [scanVisited, he]
      · right
        refine ⟨b, ?_⟩
        have h1 := bitRev_lt b (e % 2 ^ b)
        have h2 : bitRev b (e % 2 ^ b) ≠ bitRev b (v % 2 ^ b) := by
          intro hc
          apply he
          have h3 := bitRev_inj b (e % 2 ^ b) (v % 2 ^ b) hc
          rwa [Nat.mod_mod_of_dvd e dvd_rfl, Nat.mod_mod_of_dvd v dvd_rfl] at h3
        omega
    · have htr2 : scanTrace bs (scanStep b v) = 0 := htr
      rcases ih (scanStep b v) e hbs htr2 with hvis | ⟨bp, hlt⟩
      · left
        simp [scanVisited, hvis]
      · by_cases hz : scanStep b v = 0
        · rw [hz, Nat.zero_mod, bitRev_zero_eq] at hlt
          omega
        · have hv2 : scanStep b v < 2 ^ b := scanStep_lt b v
          have hcross := bitRev_cross b bp (scanStep b v) e hv2 hlt
          rw [scanStep_rev_succ b v hz] at hcross
          by_cases heq : bitRev b (e % 2 ^ b) = bitRev b (v % 2 ^ b)
          · left
            have h3 := bitRev_inj b (e % 2 ^ b) (v % 2 ^ b) heq
            rw [Nat.mod_mod_of_dvd e dvd_rfl, Nat.mod_mod_of_dvd v dvd_rfl] at h3
            simp [scanVisited, h3]
          · right
            exact ⟨b, by omega⟩

/-- C1: a full scan (repeated dictScan calls threading the returned cursor,
starting from cursor 0 and continuing until the returned cursor is 0 again)
invokes the visitor at least once for every entry present for the whole scan,
even if the table grows or shrinks between calls: for every trace of table
exponents `bs` whose cursor returns to 0, every entry hash `e` is visited. -/
theorem dictScan_coverage (bs : List Nat) (e : Nat) (hne : bs ≠ [])
    (hterm : scanTrace bs 0 = 0) : scanVisited bs 0 e = true := by
  rcases scan_cover_aux bs 0 e hne hterm with h | ⟨b, hb⟩
  · exact h
  · rw [Nat.zero_mod, bitRev_zero_eq] at hb
    omega

theorem dictScan_coverage_witness :
    ([2, 3, 2, 2, 2] : List Nat) ≠ [] ∧ scanTrace [2, 3, 2, 2, 2] 0 = 0
      ∧ scanVisited [2, 3, 2, 2, 2] 0 11 = true :=
  ⟨by decide, by decide, dictScan_coverage [2, 3, 2, 2, 2] 11 (by decide) (by decide)⟩

theorem mem_getD_flatten {α : Type} {x : α} {l : List (List α)} {i : Nat}
    (h : x ∈ l.getD i []) : x ∈ l.flatten := by
  by_cases hi : i < l.length
  · rw [List.getD_eq_getElem l [] hi] at h
    exact List.mem_flatten.2 ⟨l[i], List.getElem_mem hi, h⟩
  · rw [List.getD_eq_default l [] (by omega)] at h
    exact absurd h (List.not_mem_nil x)

theorem flatten_getD_set_perm {α : Type} (l : List (List α)) (i : Nat) :
    l.flatten.Perm (l.getD i [] ++ (l.set i []).flatten) := by
  induction l generalizing i with
  | nil => simp
  | cons a l ih =>
    cases i with
    | zero => simp
    | succ i =>
      show (a ++ l.flatten).Perm (l.getD i [] ++ (a ++ (l.set i []).flatten))
      have hsw : (a ++ (l.getD i [] ++ (l.set i []).flatten)).Perm
          (l.getD i [] ++ (a ++ (l.set i []).flatten)) := by
        rw [← List.append_assoc, ← List.append_assoc]
        exact List.Perm.append List.perm_append_comm (List.Perm.refl _)
      exact (List.Perm.append_left a (ih i)).trans hsw

theorem flatten_set_perm {α : Type} (l : List (List α)) (i : Nat) (ch : List α)
    (hi : i < l.length) :
    ((l.set i ch).flatten).Perm (ch ++ (l.set i []).flatten) := by
  have h1 := flatten_getD_set_perm (l.set i ch) i
  have hlen : i < (l.set i ch).length := by rw [List.length_set]; exact hi
  rw [List.getD_eq_getElem _ [] hlen, List.getElem_set_self hlen, List.set_set] at h1
  exact h1

theorem flatten_set_cons_perm {α : Type} (l : List (List α)) (i : Nat) (x : α)
    (hi : i < l.length) :
    ((l.set i (x :: l.getD i [])).flatten).Perm (x :: l.flatten) := by
  have h1 := flatten_set_perm l i (x :: l.getD i []) hi
  have h2 := flatten_getD_set_perm l i
  have h3 : ((x :: l.getD i []) ++ (l.set i []).flatten)
      = x :: (l.getD i [] ++ (l.set i []).flatten) := rfl
  rw [h3] at h1
  exact h1.trans (List.Perm.cons x h2.symm)

theorem mem_getD_set {α : Type} {l : List (List α)} {i j : Nat} {ch : List α} {x : α}
    (h : x ∈ (l.set i ch).getD j []) : (j = i ∧ x ∈ ch) ∨ x ∈ l.getD j [] := by
  by_cases hj : j < l.length
  · have hj2 : j < (l.set i ch).length := by rw [List.length_set]; exact hj
    rw [List.getD_eq_getElem _ [] hj2] at h
    by_cases hij : j = i
    · subst hij
      rw [List.getElem_set_self hj2] at h
      exact Or.inl ⟨rfl, h⟩
    · rw [List.getElem_set_ne (Ne.symm hij) hj2] at h
      right
      rw [List.getD_eq_getElem _ [] hj]
      exact h
  · rw [List.getD_eq_default _ _ (by rw [List.length_set]; omega)] at h
    exact absurd h (List.not_mem_nil x)

theorem flatten_replicate_nil {α : Type} (n : Nat) :
    (List.replicate n ([] : List α)).flatten = [] := by
  induction n with
  | zero => rfl
  | succ n ih => simp [List.replicate, ih]

theorem nodup_keys_inj {l : List dictEntry} (h : (l.map Prod.fst).Nodup)
    {e1 e2 : dictEntry} (h1 : e1 ∈ l) (h2 : e2 ∈ l) (hk : e1.1 = e2.1) : e1 = e2 := by
  induction l with
  | nil => exact absurd h1 (List.not_mem_nil _)
  | cons a l ih =>
    rw [List.map_cons, List.nodup_cons] at h
    rcases List.mem_cons.1 h1 with rfl | h1' <;> rcases List.mem_cons.1 h2 with rfl | h2'
    · rfl
    · exfalso
      have hm : e2.1 ∈ l.map Prod.fst := List.mem_map_of_mem Prod.fst h2'
      rw [← hk] at hm
      exact h.1 hm
    · exfalso
      have hm : e1.1 ∈ l.map Prod.fst := List.mem_map_of_mem Prod.fst h1'
      rw [hk] at hm
      exact h.1 hm
    · exact ih h.2 h1' h2'

theorem htFind_eq_some {hash : Nat → Nat} {t : dictht} {k : Nat} {e : dictEntry}
    (h : htFind hash t k = some e) : e ∈ htEntries t ∧ e.1 = k := by
  unfold htFind at h
  refine ⟨mem_getD_flatten (List.mem_of_find?_eq_some h), ?_⟩
  have := List.find?_some h
  simpa using this

theorem htFind_eq_none_of_not_mem {hash : Nat → Nat} {t : dictht} {k : Nat}
    (hnk : ∀ e ∈ htEntries t, e.1 ≠ k) : htFind hash t k = none := by
  unfold htFind
  rw [List.find?_eq_none]
  intro x hx
  simp only [beq_iff_eq]
  exact hnk x (mem_getD_flatten hx)

theorem htFind_complete {hash : Nat → Nat} {t : dictht} {k : Nat} (hwf : htWF hash t)
    {e : dictEntry} (he : e ∈ htEntries t) (hk : e.1 = k)
    (hnd : ((htEntries t).map Prod.fst).Nodup) : htFind hash t k = some e := by
  obtain ⟨ch, hch, hech⟩ := List.mem_flatten.1 he
  obtain ⟨i, hi, rfl⟩ := List.mem_iff_getElem.1 hch
  have hgd : t.table.getD i [] = t.table[i] := List.getD_eq_getElem _ _ hi
  have hbi : hash e.1 % t.table.length = i := hwf.1 i hi e (by rw [hgd]; exact hech)
  rw [hk] at hbi
  unfold htFind bucketIdx
  rw [hbi, hgd]
  cases hfind : List.find? (fun x => x.1 == k) t.table[i] with
  | none =>
    exfalso
    have := List.find?_eq_none.1 hfind e hech
    simp [hk] at this
  | some e2 =>
    have h1 := List.find?_some hfind
    have h2 := List.mem_of_find?_eq_some hfind
    have he2 : e2 ∈ htEntries t :=
      List.mem_flatten.2 ⟨t.table[i], List.getElem_mem hi, h2⟩
    have hkk : e2.1 = e.1 := by
      rw [hk]
      simpa using h1
    exact congrArg some (nodup_keys_inj hnd he2 he hkk)

theorem dictWF_parts {hash : Nat → Nat} {d : dict} (h : dictWF hash d) :
    ((htEntries d.ht0).map Prod.fst).Nodup ∧ ((htEntries d.ht1).map Prod.fst).Nodup
      ∧ ∀ x ∈ htEntries d.ht0, ∀ y ∈ htEntries d.ht1, x.1 ≠ y.1 := by
  have hnd := h.2.2.1
  unfold dict.keys dict.entries at hnd
  rw [List.map_append, List.nodup_append] at hnd
  refine ⟨hnd.1, hnd.2.1, ?_⟩
  intro x hx y hy hxy
  have hx2 : x.1 ∈ (htEntries d.ht0).map Prod.fst := List.mem_map_of_mem _ hx
  have hy2 : x.1 ∈ (htEntries d.ht1).map Prod.fst := by
    rw [hxy]
    exact List.mem_map_of_mem _ hy
  exact hnd.2.2 hx2 hy2

theorem dictIsRehashing_iff {d : dict} : dictIsRehashing d = true ↔ d.rehashidx ≠ -1 := by
  unfold dictIsRehashing
  simp

theorem dictFind_complete {hash : Nat → Nat} {d : dict} {k : Nat} (h : dictWF hash d)
    {e : dictEntry} (he : e ∈ d.entries) (hk : e.1 = k) : dictFind hash d k = some e := by
  obtain ⟨hnd0, hnd1, hdisj⟩ := dictWF_parts h
  have he2 := he
  unfold dict.entries at he2
  rcases List.mem_append.1 he2 with h0 | h1
  · unfold dictFind
    rw [htFind_complete h.1 h0 hk hnd0]
  · have hreh : d.rehashidx ≠ -1 := by
      intro hc
      have hnil := h.2.2.2.1 hc
      unfold htEntries at h1
      rw [hnil] at h1
      simp at h1
    have h0none : htFind hash d.ht0 k = none := by
      apply htFind_eq_none_of_not_mem
      intro x hx hxk
      exact hdisj x hx e h1 (by rw [hxk, hk])
    have hb : dictIsRehashing d = true := dictIsRehashing_iff.2 hreh
    unfold dictFind
    rw [h0none, hb]
    simp only [if_true]
    exact htFind_complete h.2.1 h1 hk hnd1

theorem dictFind_sound {hash : Nat → Nat} {d : dict} {k : Nat} {e : dictEntry}
    (h : dictFind hash d k = some e) : e ∈ d.entries ∧ e.1 = k := by
  unfold dictFind at h
  cases h0 : htFind hash d.ht0 k with
  | some e0 =>
    rw [h0] at h
    simp only [Option.some.injEq] at h
    subst h
    obtain ⟨hm, hk⟩ := htFind_eq_some h0
    exact ⟨List.mem_append.2 (Or.inl hm), hk⟩
  | none =>
    rw [h0] at h
    simp only [] at h
    split at h
    · obtain ⟨hm, hk⟩ := htFind_eq_some h
      exact ⟨List.mem_append.2 (Or.inr hm), hk⟩
    · cases h

theorem dictFind_eq_none_iff {hash : Nat → Nat} {d : dict} {k : Nat} (h : dictWF hash d) :
    dictFind hash d k = none ↔ ∀ e ∈ d.entries, e.1 ≠ k := by
  constructor
  · intro hn e he hk
    rw [dictFind_complete h he hk] at hn
    cases hn
  · intro hne
    cases hf : dictFind hash d k with
    | none => rfl
    | some e =>
      obtain ⟨he, hk⟩ := dictFind_sound hf
      exact absurd hk (hne e he)

theorem dictFind_congr {hash : Nat → Nat} {d d2 : dict} (hd : dictWF hash d)
    (hd2 : dictWF hash d2) (hperm : d2.entries.Perm d.entries) (k : Nat) :
    dictFind hash d2 k = dictFind hash d k := by
  cases hf : dictFind hash d k with
  | some e =>
    obtain ⟨he, hk⟩ := dictFind_sound hf
    exact dictFind_complete hd2 (hperm.mem_iff.2 he) hk
  | none =>
    rw [dictFind_eq_none_iff hd2]
    intro e he
    exact (dictFind_eq_none_iff hd).1 hf e (hperm.mem_iff.1 he)

theorem htInsertEntry_spec {hash : Nat → Nat} {t : dictht} (e : dictEntry)
    (hlen : 0 < t.table.length) (hwf : htWF hash t) :
    htWF hash (htInsertEntry hash t e)
    ∧ (htEntries (htInsertEntry hash t e)).Perm (e :: htEntries t)
    ∧ (htInsertEntry hash t e).table.length = t.table.length
    ∧ (htInsertEntry hash t e).used = t.used + 1 := by
  have hilt : hash e.1 % t.table.length < t.table.length := Nat.mod_lt _ hlen
  have hperm : ((t.table.set (hash e.1 % t.table.length)
      (e :: t.table.getD (hash e.1 % t.table.length) [])).flatten).Perm
      (e :: t.table.flatten) :=
    flatten_set_cons_perm t.table (hash e.1 % t.table.length) e hilt
  refine ⟨⟨?_, ?_⟩, hperm, List.length_set _ _ _, rfl⟩
  · intro j hj x hx
    simp only [htInsertEntry] at hj hx ⊢
    rw [List.length_set] at hj ⊢
    rcases mem_getD_set hx with ⟨rfl, hx2⟩ | hx2
    · rcases List.mem_cons.1 hx2 with rfl | hx3
      · rfl
      · exact hwf.1 _ hj x hx3
    · exact hwf.1 j hj x hx2
  · simp only [htInsertEntry, htEntries]
    rw [hperm.length_eq, List.length_cons]
    have hu := hwf.2
    unfold htEntries at hu
    omega

theorem foldl_insert_spec {hash : Nat → Nat} (chain : List dictEntry) :
    ∀ t : dictht, 0 < t.table.length → htWF hash t →
      htWF hash (chain.foldl (htInsertEntry hash) t)
      ∧ (htEntries (chain.foldl (htInsertEntry hash) t)).Perm (chain ++ htEntries t)
      ∧ (chain.foldl (htInsertEntry hash) t).table.length = t.table.length
      ∧ (chain.foldl (htInsertEntry hash) t).used = t.used + chain.length := by
  induction chain with
  | nil =>
    intro t h1 h2
    exact ⟨h2, by simp, rfl, rfl⟩
  | cons e chain ih =>
    intro t h1 h2
    obtain ⟨hwf1, hperm1, hlen1, hused1⟩ := htInsertEntry_spec e h1 h2
    obtain ⟨hwf2, hperm2, hlen2, hused2⟩ :=
      ih (htInsertEntry hash t e) (by rw [hlen1]; exact h1) hwf1
    rw [List.foldl_cons]
    refine ⟨hwf2, ?_, by rw [hlen2, hlen1], by rw [hused2, hused1]; simp; omega⟩
    have hmid : (chain ++ (e :: htEntries t)).Perm (e :: (chain ++ htEntries t)) :=
      List.perm_middle
    exact (hperm2.trans ((List.Perm.append_left chain hperm1).trans hmid))

theorem migrateBucket_spec {hash : Nat → Nat} {d : dict} (hwf : dictWF hash d)
    (hreh : d.rehashidx ≠ -1) (i : Nat) (hi : i < d.ht0.table.length) :
    dictWF hash (migrateBucket hash d i)
    ∧ ((migrateBucket hash d i).entries).Perm d.entries
    ∧ dictSize (migrateBucket hash d i) = dictSize d
    ∧ (migrateBucket hash d i).rehashidx = d.rehashidx + 1
    ∧ (migrateBucket hash d i).iterators = d.iterators
    ∧ (migrateBucket hash d i).canResize = d.canResize := by
  have hlen1 : 0 < d.ht1.table.length := (hwf.2.2.2.2 hreh).2
  have hge0 : 0 ≤ d.rehashidx := (hwf.2.2.2.2 hreh).1
  obtain ⟨hwfF, hpermF, hlenF, husedF⟩ :=
    foldl_insert_spec (d.ht0.table.getD i []) d.ht1 hlen1 hwf.2.1
  have hperm0 : d.ht0.table.flatten.Perm
      (d.ht0.table.getD i [] ++ (d.ht0.table.set i []).flatten) :=
    flatten_getD_set_perm _ i
  have hchlen : (d.ht0.table.getD i []).length + ((d.ht0.table.set i []).flatten).length
      = (htEntries d.ht0).length := by
    have := hperm0.length_eq
    rw [List.length_append] at this
    unfold htEntries
    omega
  have dperm : ((d.ht0.table.set i []).flatten
      ++ htEntries ((d.ht0.table.getD i []).foldl (htInsertEntry hash) d.ht1)).Perm
      (htEntries d.ht0 ++ htEntries d.ht1) := by
    have s1 := List.Perm.append_left ((d.ht0.table.set i []).flatten) hpermF
    have s2 : ((d.ht0.table.set i []).flatten
        ++ (d.ht0.table.getD i [] ++ htEntries d.ht1)).Perm
        ((d.ht0.table.getD i [] ++ (d.ht0.table.set i []).flatten) ++ htEntries d.ht1) := by
      rw [← List.append_assoc]
      exact List.Perm.append List.perm_append_comm (List.Perm.refl _)
    have s3 : ((d.ht0.table.getD i [] ++ (d.ht0.table.set i []).flatten)
        ++ htEntries d.ht1).Perm (htEntries d.ht0 ++ htEntries d.ht1) :=
      List.Perm.append hperm0.symm (List.Perm.refl _)
    exact (s1.trans s2).trans s3
  refine ⟨⟨⟨?_, ?_⟩, hwfF, ?_, ?_, ?_⟩, dperm, ?_, rfl, rfl, rfl⟩
  · intro j hj x hx
    simp only [migrateBucket] at hj hx ⊢
    rw [List.length_set] at hj ⊢
    rcases mem_getD_set hx with ⟨rfl, hx2⟩ | hx2
    · exact absurd hx2 (List.not_mem_nil x)
    · exact hwf.1.1 j hj x hx2
  · simp only [migrateBucket, htEntries]
    have hu := hwf.1.2
    unfold htEntries at hchlen hu
    omega
  · have hk := hwf.2.2.1
    unfold dict.keys at hk ⊢
    exact ((dperm.map Prod.fst).symm.nodup hk)
  · intro hc
    simp only [migrateBucket] at hc
    omega
  · intro _
    simp only [migrateBucket]
    constructor
    · omega
    · rw [hlenF]
      exact hlen1
  · simp only [migrateBucket, dictSize]
    rw [husedF]
    have hu := hwf.1.2
    unfold htEntries at hchlen hu
    omega

theorem rehashGo_counts (hash : Nat → Nat) :
    ∀ (visits n : Nat) (d : dict),
      (rehashGo hash visits n d).2.1 ≤ n ∧ (rehashGo hash visits n d).2.2 ≤ visits := by
  intro visits
  induction visits with
  | zero =>
    intro n d
    simp [rehashGo]
  | succ visits ih =>
    intro n d
    cases n with
    | zero => simp [rehashGo]
    | succ n =>
      by_cases hu : d.ht0.used = 0
      · simp [rehashGo, hu]
      · by_cases hemp : (d.ht0.table.getD d.rehashidx.toNat []).isEmpty
        · have h1 := ih (n + 1) { d with rehashidx := d.rehashidx + 1 }
          simp only [rehashGo, if_neg hu, if_pos hemp]
          omega
        · have h1 := ih n (migrateBucket hash d d.rehashidx.toNat)
          simp only [rehashGo, if_neg hu, if_neg hemp]
          omega

theorem rehashGo_spec (hash : Nat → Nat) :
    ∀ (visits n : Nat) (d : dict), dictWF hash d → d.rehashidx ≠ -1 →
      dictWF hash (rehashGo hash visits n d).1
      ∧ ((rehashGo hash visits n d).1.entries).Perm d.entries
      ∧ dictSize (rehashGo hash visits n d).1 = dictSize d
      ∧ (rehashGo hash visits n d).1.rehashidx ≠ -1
      ∧ (rehashGo hash visits n d).1.iterators = d.iterators
      ∧ (rehashGo hash visits n d).1.canResize = d.canResize := by
  intro visits
  induction visits with
  | zero =>
    intro n d hwf hreh
    exact ⟨hwf, List.Perm.refl _, rfl, hreh, rfl, rfl⟩
  | succ visits ih =>
    intro n d hwf hreh
    cases n with
    | zero => exact ⟨hwf, List.Perm.refl _, rfl, hreh, rfl, rfl⟩
    | succ n =>
      by_cases hu : d.ht0.used = 0
      · have heq : rehashGo hash (visits + 1) (n + 1) d = (d, 0, 0) := by
          simp only [rehashGo, if_pos hu]
        rw [heq]
        exact ⟨hwf, List.Perm.refl _, rfl, hreh, rfl, rfl⟩
      · by_cases hemp : (d.ht0.table.getD d.rehashidx.toNat []).isEmpty
        · have heq : (rehashGo hash (visits + 1) (n + 1) d).1
              = (rehashGo hash visits (n + 1) { d with rehashidx := d.rehashidx + 1 }).1 := by
            simp only [rehashGo, if_neg hu, if_pos hemp]
          rw [heq]
          have hge0 : 0 ≤ d.rehashidx := (hwf.2.2.2.2 hreh).1
          have hwf2 : dictWF hash { d with rehashidx := d.rehashidx + 1 } := by
            refine ⟨hwf.1, hwf.2.1, hwf.2.2.1, ?_, ?_⟩
            · intro hc
              simp only at hc
              omega
            · intro _
              exact ⟨by simp; omega, (hwf.2.2.2.2 hreh).2⟩
          have hreh2 : ({ d with rehashidx := d.rehashidx + 1 } : dict).rehashidx ≠ -1 := by
            simp only
            omega
          obtain ⟨a1, a2, a3, a4, a5, a6⟩ := ih (n + 1) _ hwf2 hreh2
          exact ⟨a1, a2, a3, a4, a5, a6⟩
        · have heq : (rehashGo hash (visits + 1) (n + 1) d).1
              = (rehashGo hash visits n (migrateBucket hash d d.rehashidx.toNat)).1 := by
            simp only [rehashGo, if_neg hu, if_neg hemp]
          rw [heq]
          have hi : d.rehashidx.toNat < d.ht0.table.length := by
            by_contra hge
            rw [List.getD_eq_default _ _ (by omega)] at hemp
            simp at hemp
          obtain ⟨m1, m2, m3, m4, m5, m6⟩ := migrateBucket_spec hwf hreh _ hi
          have hreh3 : (migrateBucket hash d d.rehashidx.toNat).rehashidx ≠ -1 := by
            rw [m4]
            have := (hwf.2.2.2.2 hreh).1
            omega
          obtain ⟨a1, a2, a3, a4, a5, a6⟩ := ih n _ m1 hreh3
          exact ⟨a1, a2.trans m2, by rw [a3, m3], a4, by rw [a5, m5], by rw [a6, m6]⟩

theorem htWF_empty (hash : Nat → Nat) : htWF hash dictht.empty := by
  constructor
  · intro i hi
    simp [dictht.empty] at hi
  · rfl

theorem htWF_replicate (hash : Nat → Nat) (n : Nat) :
    htWF hash ⟨List.replicate n [], 0⟩ := by
  constructor
  · intro i hi x hx
    rw [List.getD_eq_getElem _ _ (by simpa using hi), List.getElem_replicate] at hx
    exact absurd hx (List.not_mem_nil x)
  · show 0 = (htEntries ⟨List.replicate n [], 0⟩).length
    unfold htEntries
    rw [flatten_replicate_nil]
    rfl

theorem htEntries_replicate (n : Nat) :
    htEntries ⟨List.replicate n [], 0⟩ = [] := by
  unfold htEntries
  exact flatten_replicate_nil n

theorem dictRehash_pres {hash : Nat → Nat} {d : dict} (hwf : dictWF hash d) (n : Nat) :
    dictWF hash (dictRehash hash d n).1
    ∧ ((dictRehash hash d n).1.entries).Perm d.entries
    ∧ dictSize (dictRehash hash d n).1 = dictSize d
    ∧ (dictRehash hash d n).1.iterators = d.iterators
    ∧ (dictRehash hash d n).1.canResize = d.canResize := by
  by_cases hreh : dictIsRehashing d
  · have hreh2 : d.rehashidx ≠ -1 := dictIsRehashing_iff.1 hreh
    obtain ⟨a1, a2, a3, a4, a5, a6⟩ := rehashGo_spec hash (10 * n) n d hwf hreh2
    by_cases hu : (rehashGo hash (10 * n) n d).1.ht0.used = 0
    · have heq : (dictRehash hash d n).1
          = { (rehashGo hash (10 * n) n d).1 with
              ht0 := (rehashGo hash (10 * n) n d).1.ht1,
              ht1 := dictht.empty, rehashidx := -1 } := by
        simp only [dictRehash, if_pos hreh]
        rw [if_pos hu]
      rw [heq]
      have he0 : htEntries (rehashGo hash (10 * n) n d).1.ht0 = [] := by
        have h2 := a1.1.2
        rw [hu] at h2
        exact List.length_eq_zero.1 h2.symm
      have hperm2 : (htEntries (rehashGo hash (10 * n) n d).1.ht1
          ++ htEntries dictht.empty).Perm ((rehashGo hash (10 * n) n d).1.entries) := by
        unfold dict.entries
        rw [he0]
        have hh : htEntries dictht.empty = ([] : List dictEntry) := rfl
        rw [hh, List.append_nil, List.nil_append]
      refine ⟨⟨a1.2.1, htWF_empty hash, ?_, ?_, ?_⟩, hperm2.trans a2, ?_, a5, a6⟩
      · unfold dict.keys
        exact ((hperm2.map Prod.fst).symm.nodup (by
          have hk := a1.2.2.1
          unfold dict.keys at hk
          exact hk))
      · intro _
        rfl
      · intro hc
        exact absurd rfl hc
      · have ha3 := a3
        unfold dictSize at ha3 ⊢
        simp only [dictht.empty]
        omega
    · have heq : (dictRehash hash d n).1 = (rehashGo hash (10 * n) n d).1 := by
        simp only [dictRehash, if_pos hreh]
        rw [if_neg hu]
      rw [heq]
      exact ⟨a1, a2, a3, a5, a6⟩
  · have heq : (dictRehash hash d n).1 = d := by
      simp only [dictRehash]
      rw [if_neg hreh]
    rw [heq]
    exact ⟨hwf, List.Perm.refl _, rfl, rfl, rfl⟩

theorem stepIfRehashing_pres {hash : Nat → Nat} {d : dict} (hwf : dictWF hash d) :
    dictWF hash (stepIfRehashing hash d)
    ∧ ((stepIfRehashing hash d).entries).Perm d.entries
    ∧ dictSize (stepIfRehashing hash d) = dictSize d
    ∧ (stepIfRehashing hash d).iterators = d.iterators
    ∧ (stepIfRehashing hash d).canResize = d.canResize := by
  unfold stepIfRehashing dictRehashStep
  by_cases hreh : dictIsRehashing d
  · rw [if_pos hreh]
    by_cases hit : d.iterators = 0
    · rw [if_pos hit]
      exact dictRehash_pres hwf 1
    · rw [if_neg hit]
      exact ⟨hwf, List.Perm.refl _, rfl, rfl, rfl⟩
  · rw [if_neg hreh]
    exact ⟨hwf, List.Perm.refl _, rfl, rfl, rfl⟩

theorem stepIfRehashing_of_iterators {hash : Nat → Nat} {d : dict}
    (h : d.iterators ≠ 0) : stepIfRehashing hash d = d := by
  unfold stepIfRehashing dictRehashStep
  by_cases hreh : dictIsRehashing d
  · rw [if_pos hreh, if_neg h]
  · rw [if_neg hreh]

theorem nextPowerGo_ge (target : Nat) : ∀ fuel i : Nat, i ≤ nextPowerGo target fuel i := by
  intro fuel
  induction fuel with
  | zero => intro i; exact Nat.le_refl _
  | succ fuel ih =>
    intro i
    unfold nextPowerGo
    split
    · exact Nat.le_refl _
    · exact Nat.le_trans (by omega) (ih (2 * i))

theorem nextPower_pos (n : Nat) : 0 < nextPower n := by
  unfold nextPower DICT_HT_INITIAL_SIZE
  have := nextPowerGo_ge n n 4
  omega

theorem nextPowerGo_reaches (target : Nat) : ∀ fuel i : Nat, 0 < i →
    target ≤ i + fuel → target ≤ nextPowerGo target fuel i := by
  intro fuel
  induction fuel with
  | zero =>
    intro i hi h
    unfold nextPowerGo
    omega
  | succ fuel ih =>
    intro i hi h
    unfold nextPowerGo
    split
    · assumption
    · exact ih (2 * i) (by omega) (by omega)

theorem nextPower_ge (n : Nat) : n ≤ nextPower n := by
  unfold nextPower
  exact nextPowerGo_reaches n n DICT_HT_INITIAL_SIZE
    (by unfold DICT_HT_INITIAL_SIZE; omega) (by unfold DICT_HT_INITIAL_SIZE; omega)

theorem dictExpand_spec {hash : Nat → Nat} {d : dict} (hwf : dictWF hash d) (size : Nat) :
    dictWF hash (dictExpand d size).1
    ∧ ((dictExpand d size).1.entries).Perm d.entries
    ∧ dictSize (dictExpand d size).1 = dictSize d
    ∧ (dictExpand d size).1.iterators = d.iterators := by
  simp only [dictExpand]
  by_cases h1 : dictIsRehashing d = true ∨ size < d.ht0.used
  · rw [if_pos h1]
    exact ⟨hwf, List.Perm.refl _, rfl, rfl⟩
  · rw [if_neg h1]
    by_cases h2 : nextPower size = d.ht0.size
    · rw [if_pos h2]
      exact ⟨hwf, List.Perm.refl _, rfl, rfl⟩
    · rw [if_neg h2]
      by_cases h3 : d.ht0.size = 0
      · rw [if_pos h3]
        have htab : d.ht0.table = [] := by
          unfold dictht.size at h3
          exact List.length_eq_zero.1 h3
        have he0 : htEntries d.ht0 = [] := by
          unfold htEntries
          rw [htab]
          rfl
        have hu0 : d.ht0.used = 0 := by
          have := hwf.1.2
          rw [he0] at this
          simpa using this
        have hperm : (dict.mk ⟨List.replicate (nextPower size) [], 0⟩ d.ht1
            d.rehashidx d.iterators d.canResize).entries = d.entries := by
          unfold dict.entries
          rw [he0, htEntries_replicate, List.nil_append]
        refine ⟨⟨htWF_replicate hash _, hwf.2.1, ?_, hwf.2.2.2.1, hwf.2.2.2.2⟩, ?_, ?_, rfl⟩
        · unfold dict.keys
          rw [show (dict.mk ⟨List.replicate (nextPower size) [], 0⟩ d.ht1
              d.rehashidx d.iterators d.canResize).entries = d.entries from hperm]
          exact hwf.2.2.1
        · rw [show (dict.mk ⟨List.replicate (nextPower size) [], 0⟩ d.ht1
              d.rehashidx d.iterators d.canResize).entries = d.entries from hperm]
        · unfold dictSize
          simp only
          omega
      · rw [if_neg h3]
        have hreh : d.rehashidx = -1 := by
          rcases not_or.1 h1 with ⟨ha, _⟩
          by_contra hc
          exact ha (dictIsRehashing_iff.2 hc)
        have htab1 : d.ht1.table = [] := hwf.2.2.2.1 hreh
        have he1 : htEntries d.ht1 = [] := by
          unfold htEntries
          rw [htab1]
          rfl
        have hu1 : d.ht1.used = 0 := by
          have := hwf.2.1.2
          rw [he1] at this
          simpa using this
        have hperm : (dict.mk d.ht0 ⟨List.replicate (nextPower size) [], 0⟩
            0 d.iterators d.canResize).entries = d.entries := by
          unfold dict.entries
          rw [he1, htEntries_replicate]
        refine ⟨⟨hwf.1, htWF_replicate hash _, ?_, ?_, ?_⟩, ?_, ?_, rfl⟩
        · unfold dict.keys
          rw [show (dict.mk d.ht0 ⟨List.replicate (nextPower size) [], 0⟩
              0 d.iterators d.canResize).entries = d.entries from hperm]
          exact hwf.2.2.1
        · intro hc
          simp only at hc
          cases hc
        · intro _
          constructor
          · simp only
            omega
          · simp only [List.length_replicate]
            exact nextPower_pos size
        · rw [show (dict.mk d.ht0 ⟨List.replicate (nextPower size) [], 0⟩
              0 d.iterators d.canResize).entries = d.entries from hperm]
        · unfold dictSize
          simp only
          omega

theorem dictExpandIfNeeded_spec {hash : Nat → Nat} {d : dict} (hwf : dictWF hash d) :
    dictWF hash (dictExpandIfNeeded d)
    ∧ ((dictExpandIfNeeded d).entries).Perm d.entries
    ∧ dictSize (dictExpandIfNeeded d) = dictSize d
    ∧ (dictExpandIfNeeded d).iterators = d.iterators
    ∧ ((dictExpandIfNeeded d).rehashidx = -1 → 0 < (dictExpandIfNeeded d).ht0.table.length) := by
  simp only [dictExpandIfNeeded]
  by_cases h1 : dictIsRehashing d = true
  · rw [if_pos h1]
    refine ⟨hwf, List.Perm.refl _, rfl, rfl, ?_⟩
    intro hc
    exact absurd hc (dictIsRehashing_iff.1 h1)
  · rw [if_neg h1]
    by_cases h2 : d.ht0.size = 0
    · rw [if_pos h2]
      have htab : d.ht0.table = [] := by
        unfold dictht.size at h2
        exact List.length_eq_zero.1 h2
      have hu0 : d.ht0.used = 0 := by
        have := hwf.1.2
        unfold htEntries at this
        rw [htab] at this
        simpa using this
      have hcond : ¬(dictIsRehashing d = true ∨ DICT_HT_INITIAL_SIZE < d.ht0.used) := by
        rw [hu0]
        unfold DICT_HT_INITIAL_SIZE
        simp [h1]
      have hne : ¬(nextPower DICT_HT_INITIAL_SIZE = d.ht0.size) := by
        rw [h2]
        have := nextPower_pos DICT_HT_INITIAL_SIZE
        omega
      have hexp : (dictExpand d DICT_HT_INITIAL_SIZE).1
          = dict.mk ⟨List.replicate (nextPower DICT_HT_INITIAL_SIZE) [], 0⟩ d.ht1
              d.rehashidx d.iterators d.canResize := by
        simp only [dictExpand]
        rw [if_neg hcond, if_neg hne, if_pos h2]
      obtain ⟨a1, a2, a3, a4⟩ := dictExpand_spec hwf DICT_HT_INITIAL_SIZE
      refine ⟨a1, a2, a3, a4, ?_⟩
      intro _
      rw [hexp]
      simp only [List.length_replicate]
      exact nextPower_pos _
    · rw [if_neg h2]
      by_cases h3 : d.ht0.used ≥ d.ht0.size ∧ (d.canResize = true ∨ d.ht0.used / d.ht0.size > 5)
      · rw [if_pos h3]
        have hcond : ¬(dictIsRehashing d = true ∨ 2 * d.ht0.used < d.ht0.used) :=
          fun hor => hor.elim h1 (fun hlt => absurd hlt (by omega))
        have hne : ¬(nextPower (2 * d.ht0.used) = d.ht0.size) := by
          intro hc
          have hge := nextPower_ge (2 * d.ht0.used)
          rw [hc] at hge
          have h31 := h3.1
          omega
        have hexp : (dictExpand d (2 * d.ht0.used)).1
            = dict.mk d.ht0 ⟨List.replicate (nextPower (2 * d.ht0.used)) [], 0⟩
                0 d.iterators d.canResize := by
          simp only [dictExpand]
          rw [if_neg hcond, if_neg hne, if_neg h2]
        obtain ⟨a1, a2, a3, a4⟩ := dictExpand_spec hwf (2 * d.ht0.used)
        refine ⟨a1, a2, a3, a4, ?_⟩
        intro hc
        rw [hexp] at hc
        simp only at hc
        cases hc
      · rw [if_neg h3]
        refine ⟨hwf, List.Perm.refl _, rfl, rfl, ?_⟩
        intro _
        unfold dictht.size at h2
        omega

theorem dictExpandIfNeeded_triggers {d : dict}
    (h1 : ¬(dictIsRehashing d = true)) (hsz : 0 < d.ht0.size) (hcr : d.canResize = true)
    (hload : d.ht0.size ≤ d.ht0.used) :
    (dictExpandIfNeeded d).rehashidx = 0
    ∧ 0 < (dictExpandIfNeeded d).ht1.table.length := by
  have hcond : ¬(dictIsRehashing d = true ∨ 2 * d.ht0.used < d.ht0.used) :=
    fun hor => hor.elim h1 (fun hlt => absurd hlt (by omega))
  have hne : ¬(nextPower (2 * d.ht0.used) = d.ht0.size) := by
    intro hc
    have hge := nextPower_ge (2 * d.ht0.used)
    rw [hc] at hge
    omega
  have h2 : ¬(d.ht0.size = 0) := by omega
  have hexp : dictExpandIfNeeded d
      = dict.mk d.ht0 ⟨List.replicate (nextPower (2 * d.ht0.used)) [], 0⟩
          0 d.iterators d.canResize := by
    simp only [dictExpandIfNeeded]
    rw [if_neg h1, if_neg h2, if_pos ⟨hload, Or.inl hcr⟩]
    simp only [dictExpand]
    rw [if_neg hcond, if_neg hne, if_neg h2]
  rw [hexp]
  refine ⟨rfl, ?_⟩
  simp only [List.length_replicate]
  exact nextPower_pos _

theorem insertNewEntry_spec {hash : Nat → Nat} {d : dict} {k : Nat} (val : Option Nat)
    (hwf : dictWF hash d)
    (hlen0 : d.rehashidx = -1 → 0 < d.ht0.table.length)
    (hfresh : ∀ e ∈ d.entries, e.1 ≠ k) :
    dictWF hash (insertNewEntry hash d k val)
    ∧ ((insertNewEntry hash d k val).entries).Perm ((k, val) :: d.entries)
    ∧ dictSize (insertNewEntry hash d k val) = dictSize d + 1
    ∧ (insertNewEntry hash d k val).rehashidx = d.rehashidx
    ∧ (insertNewEntry hash d k val).iterators = d.iterators := by
  have hknotin : k ∉ d.entries.map Prod.fst := by
    intro hk
    obtain ⟨e, he, hke⟩ := List.mem_map.1 hk
    exact hfresh e he hke
  have hnd : (d.entries.map Prod.fst).Nodup := by
    have := hwf.2.2.1
    unfold dict.keys at this
    exact this
  unfold insertNewEntry
  by_cases hreh : dictIsRehashing d
  · rw [if_pos hreh]
    have hreh2 := dictIsRehashing_iff.1 hreh
    have hlen1 : 0 < d.ht1.table.length := (hwf.2.2.2.2 hreh2).2
    obtain ⟨i1, i2, i3, i4⟩ := htInsertEntry_spec (k, val) hlen1 hwf.2.1
    have hperm : ((htEntries d.ht0) ++ htEntries (htInsertEntry hash d.ht1 (k, val))).Perm
        ((k, val) :: d.entries) := by
      have s1 := List.Perm.append_left (htEntries d.ht0) i2
      have s2 : (htEntries d.ht0 ++ ((k, val) :: htEntries d.ht1)).Perm
          ((k, val) :: (htEntries d.ht0 ++ htEntries d.ht1)) := List.perm_middle
      exact s1.trans s2
    refine ⟨⟨hwf.1, i1, ?_, ?_, ?_⟩, hperm, ?_, rfl, rfl⟩
    · unfold dict.keys
      exact (hperm.map Prod.fst).symm.nodup (List.nodup_cons.2 ⟨hknotin, hnd⟩)
    · intro hc
      exact absurd hc hreh2
    · intro _
      refine ⟨(hwf.2.2.2.2 hreh2).1, ?_⟩
      rw [i3]
      exact hlen1
    · unfold dictSize
      simp only
      rw [i4]
      omega
  · rw [if_neg hreh]
    have hreh2 : d.rehashidx = -1 := by
      by_contra hc
      exact hreh (dictIsRehashing_iff.2 hc)
    obtain ⟨i1, i2, i3, i4⟩ := htInsertEntry_spec (k, val) (hlen0 hreh2) hwf.1
    have hperm : (htEntries (htInsertEntry hash d.ht0 (k, val)) ++ htEntries d.ht1).Perm
        ((k, val) :: d.entries) := by
      have s1 := List.Perm.append i2 (List.Perm.refl (htEntries d.ht1))
      have s2 : (((k, val) :: htEntries d.ht0) ++ htEntries d.ht1)
          = (k, val) :: d.entries := rfl
      rw [s2] at s1
      exact s1
    refine ⟨⟨i1, hwf.2.1, ?_, ?_, ?_⟩, hperm, ?_, rfl, rfl⟩
    · unfold dict.keys
      exact (hperm.map Prod.fst).symm.nodup (List.nodup_cons.2 ⟨hknotin, hnd⟩)
    · intro _
      exact hwf.2.2.2.1 hreh2
    · intro hc
      exact absurd hreh2 hc
    · unfold dictSize
      simp only
      rw [i4]
      omega

theorem dictAddRawCore_spec {hash : Nat → Nat} {d : dict} (hwf : dictWF hash d)
    (k : Nat) (val : Option Nat) :
    dictWF hash (dictAddRawCore hash d k val).1
    ∧ ((dictAddRawCore hash d k val).2 = none →
        ((dictAddRawCore hash d k val).1.entries).Perm d.entries
        ∧ dictSize (dictAddRawCore hash d k val).1 = dictSize d)
    ∧ ((dictAddRawCore hash d k val).2.isSome = true →
        (dictAddRawCore hash d k val).2 = some (k, val)
        ∧ ((dictAddRawCore hash d k val).1.entries).Perm ((k, val) :: d.entries)
        ∧ dictSize (dictAddRawCore hash d k val).1 = dictSize d + 1)
    ∧ ((dictAddRawCore hash d k val).2 = none ↔ ∃ e ∈ d.entries, e.1 = k) := by
  obtain ⟨s1, s2, s3, s4, s5⟩ := @stepIfRehashing_pres hash d hwf
  unfold dictAddRawCore
  by_cases hf : (dictFind hash (stepIfRehashing hash d) k).isSome = true
  · rw [if_pos hf]
    refine ⟨s1, fun _ => ⟨s2, s3⟩, ?_, ?_⟩
    · intro hs
      simp at hs
    · constructor
      · intro _
        obtain ⟨e, hfe⟩ := Option.isSome_iff_exists.1 hf
        obtain ⟨he, hk⟩ := dictFind_sound hfe
        exact ⟨e, s2.mem_iff.1 he, hk⟩
      · intro _
        rfl
  · rw [if_neg hf]
    have hnone : dictFind hash (stepIfRehashing hash d) k = none := by
      cases hfd : dictFind hash (stepIfRehashing hash d) k with
      | none => rfl
      | some e =>
        rw [hfd] at hf
        simp at hf
    have hfresh1 : ∀ e ∈ (stepIfRehashing hash d).entries, e.1 ≠ k :=
      (dictFind_eq_none_iff s1).1 hnone
    obtain ⟨x1, x2, x3, x4, x5⟩ := dictExpandIfNeeded_spec s1
    have hfresh2 : ∀ e ∈ (dictExpandIfNeeded (stepIfRehashing hash d)).entries, e.1 ≠ k :=
      fun e he => hfresh1 e (x2.mem_iff.1 he)
    obtain ⟨y1, y2, y3, y4, y5⟩ := insertNewEntry_spec val x1 x5 hfresh2
    refine ⟨y1, ?_, ?_, ?_⟩
    · intro hc
      simp at hc
    · intro _
      refine ⟨rfl, ?_, ?_⟩
      · exact y2.trans (List.Perm.cons _ (x2.trans s2))
      · rw [y3, x3, s3]
    · constructor
      · intro hc
        simp at hc
      · intro hex
        exfalso
        obtain ⟨e, he, hk⟩ := hex
        exact hfresh1 e (s2.mem_iff.2 he) hk

theorem dictAdd_spec {hash : Nat → Nat} {d : dict} (hwf : dictWF hash d) (k v : Nat) :
    dictWF hash (dictAdd hash d k v).1
    ∧ ((dictAdd hash d k v).2 = true →
        ((dictAdd hash d k v).1.entries).Perm ((k, some v) :: d.entries)
        ∧ dictSize (dictAdd hash d k v).1 = dictSize d + 1)
    ∧ ((dictAdd hash d k v).2 = false →
        ((dictAdd hash d k v).1.entries).Perm d.entries
        ∧ dictSize (dictAdd hash d k v).1 = dictSize d)
    ∧ ((dictAdd hash d k v).2 = false ↔ ∃ e ∈ d.entries, e.1 = k) := by
  obtain ⟨a1, a2, a3, a4⟩ := dictAddRawCore_spec hwf k (some v)
  simp only [dictAdd]
  refine ⟨a1, ?_, ?_, ?_⟩
  · intro ht
    obtain ⟨_, hp, hs⟩ := a3 ht
    exact ⟨hp, hs⟩
  · intro hfalse
    have hnone : (dictAddRawCore hash d k (some v)).2 = none := by
      cases hc : (dictAddRawCore hash d k (some v)).2 with
      | none => rfl
      | some e =>
        rw [hc] at hfalse
        simp at hfalse
    exact a2 hnone
  · rw [← a4]
    cases hc : (dictAddRawCore hash d k (some v)).2 with
    | none => simp
    | some e => simp

theorem chainRemove_not_found {k : Nat} {ch : List dictEntry}
    (h : ∀ e ∈ ch, e.1 ≠ k) : chainRemove k ch = (ch, false) := by
  induction ch with
  | nil => rfl
  | cons e es ih =>
    have hek : ¬(e.1 = k) := h e (List.mem_cons_self e es)
    have hrec := ih (fun x hx => h x (List.mem_cons_of_mem e hx))
    simp only [chainRemove, if_neg hek, hrec]

theorem chainRemove_mem {k : Nat} {ch : List dictEntry} {x : dictEntry}
    (h : x ∈ (chainRemove k ch).1) : x ∈ ch := by
  induction ch with
  | nil =>
    simp [chainRemove] at h
  | cons e es ih =>
    by_cases he : e.1 = k
    · rw [show (chainRemove k (e :: es)).1 = es from by simp [chainRemove, he]] at h
      exact List.mem_cons_of_mem e h
    · rw [show (chainRemove k (e :: es)).1 = e :: (chainRemove k es).1 from by
        simp [chainRemove, he]] at h
      rcases List.mem_cons.1 h with rfl | h2
      · exact List.mem_cons_self _ _
      · exact List.mem_cons_of_mem e (ih h2)

theorem chainRemove_found_iff {k : Nat} {ch : List dictEntry} :
    (chainRemove k ch).2 = true ↔ ∃ e ∈ ch, e.1 = k := by
  induction ch with
  | nil => simp [chainRemove]
  | cons e es ih =>
    by_cases he : e.1 = k
    · simp [chainRemove, he]
    · rw [show (chainRemove k (e :: es)).2 = (chainRemove k es).2 from by
        simp [chainRemove, he]]
      rw [ih]
      constructor
      · rintro ⟨x, hx, hk⟩
        exact ⟨x, List.mem_cons_of_mem e hx, hk⟩
      · rintro ⟨x, hx, hk⟩
        rcases List.mem_cons.1 hx with rfl | hx2
        · exact absurd hk he
        · exact ⟨x, hx2, hk⟩

theorem chainRemove_found_perm {k : Nat} {ch : List dictEntry}
    (h : (chainRemove k ch).2 = true) :
    ∃ w, ch.Perm ((k, w) :: (chainRemove k ch).1) := by
  induction ch with
  | nil => simp [chainRemove] at h
  | cons e es ih =>
    by_cases he : e.1 = k
    · refine ⟨e.2, ?_⟩
      rw [show (chainRemove k (e :: es)).1 = es from by simp [chainRemove, he]]
      have hee : ((k, e.2) : dictEntry) = e := by
        rw [← he]
      rw [hee]
    · have hrec : (chainRemove k es).2 = true := by
        rw [show (chainRemove k (e :: es)).2 = (chainRemove k es).2 from by
          simp [chainRemove, he]] at h
        exact h
      obtain ⟨w, hp⟩ := ih hrec
      refine ⟨w, ?_⟩
      rw [show (chainRemove k (e :: es)).1 = e :: (chainRemove k es).1 from by
        simp [chainRemove, he]]
      exact (List.Perm.cons e hp).trans (List.Perm.swap _ _ _)

theorem htDelete_spec {hash : Nat → Nat} {t : dictht} {k : Nat} (hwf : htWF hash t) :
    ((htDelete hash t k).2 = false → (htDelete hash t k).1 = t)
    ∧ ((htDelete hash t k).2 = true →
        htWF hash (htDelete hash t k).1
        ∧ (∃ w, (htEntries t).Perm ((k, w) :: htEntries (htDelete hash t k).1))
        ∧ (htDelete hash t k).1.used + 1 = t.used
        ∧ (htDelete hash t k).1.table.length = t.table.length)
    ∧ ((htDelete hash t k).2 = true ↔ ∃ e ∈ htEntries t, e.1 = k) := by
  simp only [htDelete]
  by_cases hfound : (chainRemove k (t.table.getD (bucketIdx hash t k) [])).2 = true
  · rw [if_pos hfound]
    have hchne : t.table.getD (bucketIdx hash t k) [] ≠ [] := by
      intro hc
      rw [hc] at hfound
      simp [chainRemove] at hfound
    have hi : bucketIdx hash t k < t.table.length := by
      by_contra hge
      exact hchne (List.getD_eq_default _ _ (by omega))
    obtain ⟨w, hp⟩ := chainRemove_found_perm hfound
    have hset := flatten_set_perm t.table (bucketIdx hash t k)
      (chainRemove k (t.table.getD (bucketIdx hash t k) [])).1 hi
    have hget := flatten_getD_set_perm t.table (bucketIdx hash t k)
    have hperm : (htEntries t).Perm
        ((k, w) :: (t.table.set (bucketIdx hash t k)
          (chainRemove k (t.table.getD (bucketIdx hash t k) [])).1).flatten) := by
      have s1 : (htEntries t).Perm
          (((k, w) :: (chainRemove k (t.table.getD (bucketIdx hash t k) [])).1)
            ++ (t.table.set (bucketIdx hash t k) []).flatten) :=
        hget.trans (List.Perm.append hp (List.Perm.refl _))
      have s2 : (((k, w) :: (chainRemove k (t.table.getD (bucketIdx hash t k) [])).1)
          ++ (t.table.set (bucketIdx hash t k) []).flatten)
          = (k, w) :: ((chainRemove k (t.table.getD (bucketIdx hash t k) [])).1
            ++ (t.table.set (bucketIdx hash t k) []).flatten) := rfl
      rw [s2] at s1
      exact s1.trans (List.Perm.cons _ hset.symm)
    have hlen : (htEntries t).length
        = ((t.table.set (bucketIdx hash t k)
          (chainRemove k (t.table.getD (bucketIdx hash t k) [])).1).flatten).length + 1 := by
      rw [hperm.length_eq]
      rfl
    refine ⟨fun hc => Bool.noConfusion hc, fun _ => ⟨⟨?_, ?_⟩, ⟨w, hperm⟩, ?_, ?_⟩, ?_⟩
    · intro j hj x hx
      simp only [List.length_set] at hj ⊢
      rcases mem_getD_set hx with ⟨rfl, hx2⟩ | hx2
      · exact hwf.1 _ hj x (chainRemove_mem hx2)
      · exact hwf.1 j hj x hx2
    · show t.used - 1 = ((t.table.set (bucketIdx hash t k)
        (chainRemove k (t.table.getD (bucketIdx hash t k) [])).1).flatten).length
      have hu := hwf.2
      unfold htEntries at hu hlen
      omega
    · show t.used - 1 + 1 = t.used
      have hu := hwf.2
      have : 0 < t.used := by
        rw [hu, hlen]
        omega
      omega
    · exact List.length_set _ _ _
    · constructor
      · intro _
        obtain ⟨e, he, hk⟩ := chainRemove_found_iff.1 hfound
        exact ⟨e, mem_getD_flatten he, hk⟩
      · intro _
        rfl
  · rw [if_neg hfound]
    have hfalse : (chainRemove k (t.table.getD (bucketIdx hash t k) [])).2 = false := by
      cases hc : (chainRemove k (t.table.getD (bucketIdx hash t k) [])).2
      · rfl
      · exact absurd hc hfound
    refine ⟨fun _ => rfl, fun hc => Bool.noConfusion hc, ?_⟩
    constructor
    · intro hc
      exact Bool.noConfusion hc
    · intro hex
      exfalso
      obtain ⟨e, he, hk⟩ := hex
      -- e is in the bucket of its hash, which is the searched bucket
      obtain ⟨ch, hch, hech⟩ := List.mem_flatten.1 he
      obtain ⟨i, hilt, rfl⟩ := List.mem_iff_getElem.1 hch
      have hgd : t.table.getD i [] = t.table[i] := List.getD_eq_getElem _ _ hilt
      have hbi : hash e.1 % t.table.length = i := hwf.1 i hilt e (by rw [hgd]; exact hech)
      have hieq : bucketIdx hash t k = i := by
        unfold bucketIdx
        rw [← hk]
        exact hbi
      apply hfound
      rw [chainRemove_found_iff]
      refine ⟨e, ?_, hk⟩
      rw [hieq, hgd]
      exact hech

theorem dictDelete_spec {hash : Nat → Nat} {d : dict} (hwf : dictWF hash d) (k : Nat) :
    dictWF hash (dictGenericDelete hash d k).1
    ∧ ((dictGenericDelete hash d k).2 = true →
        (∃ w, d.entries.Perm ((k, w) :: (dictGenericDelete hash d k).1.entries))
        ∧ dictSize (dictGenericDelete hash d k).1 + 1 = dictSize d)
    ∧ ((dictGenericDelete hash d k).2 = false →
        (dictGenericDelete hash d k).1 = stepIfRehashing hash d)
    ∧ ((dictGenericDelete hash d k).2 = false ↔ ∀ e ∈ d.entries, e.1 ≠ k) := by
  obtain ⟨s1, s2, s3, s4, s5⟩ := @stepIfRehashing_pres hash d hwf
  obtain ⟨hnd0, hnd1, hdisj⟩ := dictWF_parts s1
  simp only [dictGenericDelete]
  obtain ⟨d0f, d0t, d0iff⟩ := @htDelete_spec hash (stepIfRehashing hash d).ht0 k s1.1
  obtain ⟨d1f, d1t, d1iff⟩ := @htDelete_spec hash (stepIfRehashing hash d).ht1 k s1.2.1
  by_cases h0 : (htDelete hash (stepIfRehashing hash d).ht0 k).2 = true
  · rw [if_pos h0]
    obtain ⟨w0, hw0⟩ := (d0t h0).2.1
    obtain ⟨ww, hw⟩ := (d0t h0).2.1
    have hperm : (stepIfRehashing hash d).entries.Perm
        ((k, ww) :: (htEntries (htDelete hash (stepIfRehashing hash d).ht0 k).1
          ++ htEntries (stepIfRehashing hash d).ht1)) := by
      have s6 := List.Perm.append hw (List.Perm.refl (htEntries (stepIfRehashing hash d).ht1))
      have s7 : (((k, ww) :: htEntries (htDelete hash (stepIfRehashing hash d).ht0 k).1)
          ++ htEntries (stepIfRehashing hash d).ht1)
          = (k, ww) :: (htEntries (htDelete hash (stepIfRehashing hash d).ht0 k).1
            ++ htEntries (stepIfRehashing hash d).ht1) := rfl
      rw [s7] at s6
      exact s6
    refine ⟨⟨(d0t h0).1, s1.2.1, ?_, ?_, ?_⟩, ?_, ?_, ?_⟩
    · unfold dict.keys
      have hk := s1.2.2.1
      unfold dict.keys at hk
      have := (hperm.map Prod.fst).nodup hk
      rw [List.map_cons] at this
      exact (List.nodup_cons.1 this).2
    · intro hc
      exact s1.2.2.2.1 hc
    · intro hc
      exact s1.2.2.2.2 hc
    · intro _
      refine ⟨⟨ww, s2.symm.trans hperm⟩, ?_⟩
      have hu := (d0t h0).2.2.1
      have hs3 := s3
      unfold dictSize at hs3 ⊢
      simp only
      omega
    · intro hc
      exact Bool.noConfusion hc
    · constructor
      · intro hc
        exact Bool.noConfusion hc
      · intro hall
        exfalso
        obtain ⟨e, he, hk⟩ := d0iff.1 h0
        exact hall e (s2.mem_iff.1 (List.mem_append.2 (Or.inl he))) hk
  · rw [if_neg h0]
    have h0f : (htDelete hash (stepIfRehashing hash d).ht0 k).2 = false := by
      cases hc : (htDelete hash (stepIfRehashing hash d).ht0 k).2
      · rfl
      · exact absurd hc h0
    have hnotin0 : ∀ e ∈ htEntries (stepIfRehashing hash d).ht0, e.1 ≠ k := by
      intro e he hk
      rw [Bool.eq_false_iff] at h0f
      exact h0f (d0iff.2 ⟨e, he, hk⟩)
    by_cases hreh : dictIsRehashing (stepIfRehashing hash d)
    · rw [if_pos hreh]
      by_cases h1 : (htDelete hash (stepIfRehashing hash d).ht1 k).2 = true
      · rw [if_pos h1]
        obtain ⟨ww, hw⟩ := (d1t h1).2.1
        have hperm : (stepIfRehashing hash d).entries.Perm
            ((k, ww) :: (htEntries (stepIfRehashing hash d).ht0
              ++ htEntries (htDelete hash (stepIfRehashing hash d).ht1 k).1)) := by
          have s6 := List.Perm.append_left (htEntries (stepIfRehashing hash d).ht0) hw
          exact s6.trans List.perm_middle
        refine ⟨⟨s1.1, (d1t h1).1, ?_, ?_, ?_⟩, ?_, ?_, ?_⟩
        · unfold dict.keys
          have hk := s1.2.2.1
          unfold dict.keys at hk
          have := (hperm.map Prod.fst).nodup hk
          rw [List.map_cons] at this
          exact (List.nodup_cons.1 this).2
        · intro hc
          have htab := s1.2.2.2.1 hc
          have hlen := (d1t h1).2.2.2
          rw [htab] at hlen
          exact List.length_eq_zero.1 (by simpa using hlen)
        · intro hc
          have h2 := s1.2.2.2.2 hc
          refine ⟨h2.1, ?_⟩
          rw [(d1t h1).2.2.2]
          exact h2.2
        · intro _
          refine ⟨⟨ww, s2.symm.trans hperm⟩, ?_⟩
          have hu := (d1t h1).2.2.1
          have hs3 := s3
          unfold dictSize at hs3 ⊢
          simp only
          omega
        · intro hc
          exact Bool.noConfusion hc
        · constructor
          · intro hc
            exact Bool.noConfusion hc
          · intro hall
            exfalso
            obtain ⟨e, he, hk⟩ := d1iff.1 h1
            exact hall e (s2.mem_iff.1 (List.mem_append.2 (Or.inr he))) hk
      · rw [if_neg h1]
        have h1f : (htDelete hash (stepIfRehashing hash d).ht1 k).2 = false := by
          cases hc : (htDelete hash (stepIfRehashing hash d).ht1 k).2
          · rfl
          · exact absurd hc h1
        have hnotin1 : ∀ e ∈ htEntries (stepIfRehashing hash d).ht1, e.1 ≠ k := by
          intro e he hk
          rw [Bool.eq_false_iff] at h1f
          exact h1f (d1iff.2 ⟨e, he, hk⟩)
        refine ⟨s1, fun hc => Bool.noConfusion hc, fun _ => rfl, ?_⟩
        constructor
        · intro _ e he hk
          rcases List.mem_append.1 (s2.mem_iff.2 he) with hm | hm
          · exact hnotin0 e hm hk
          · exact hnotin1 e hm hk
        · intro _
          rfl
    · rw [if_neg hreh]
      have htab1 : (stepIfRehashing hash d).ht1.table = [] := by
        apply s1.2.2.2.1
        by_contra hc
        exact hreh (dictIsRehashing_iff.2 hc)
      have hnotin1 : ∀ e ∈ htEntries (stepIfRehashing hash d).ht1, e.1 ≠ k := by
        intro e he
        unfold htEntries at he
        rw [htab1] at he
        simp at he
      refine ⟨s1, fun hc => Bool.noConfusion hc, fun _ => rfl, ?_⟩
      constructor
      · intro _ e he hk
        rcases List.mem_append.1 (s2.mem_iff.2 he) with hm | hm
        · exact hnotin0 e hm hk
        · exact hnotin1 e hm hk
      · intro _
        rfl

theorem chainSetVal_length (k : Nat) (v : Option Nat) (ch : List dictEntry) :
    (chainSetVal k v ch).length = ch.length := by
  induction ch with
  | nil => rfl
  | cons e es ih =>
    by_cases he : e.1 = k
    · simp [chainSetVal, he]
    · simp [chainSetVal, he, ih]

theorem chainSetVal_mem {k : Nat} {v : Option Nat} {ch : List dictEntry} {x : dictEntry}
    (h : x ∈ chainSetVal k v ch) : x.1 ∈ ch.map Prod.fst := by
  induction ch with
  | nil => simp [chainSetVal] at h
  | cons e es ih =>
    by_cases he : e.1 = k
    · rw [show chainSetVal k v (e :: es) = (k, v) :: es from by simp [chainSetVal, he]] at h
      rcases List.mem_cons.1 h with rfl | h2
      · simp [he]
      · rw [List.map_cons]
        exact List.mem_cons_of_mem _ (List.mem_map_of_mem _ h2)
    · rw [show chainSetVal k v (e :: es) = e :: chainSetVal k v es from by
        simp [chainSetVal, he]] at h
      rcases List.mem_cons.1 h with rfl | h2
      · rw [List.map_cons]
        exact List.mem_cons_self _ _
      · rw [List.map_cons]
        exact List.mem_cons_of_mem _ (ih h2)

theorem chainSetVal_keys (k : Nat) (v : Option Nat) (ch : List dictEntry) :
    (chainSetVal k v ch).map Prod.fst = ch.map Prod.fst := by
  induction ch with
  | nil => rfl
  | cons e es ih =>
    by_cases he : e.1 = k
    · simp [chainSetVal, he]
    · simp [chainSetVal, he, ih]

theorem htSetVal_spec {hash : Nat → Nat} {t : dictht} (k : Nat) (v : Option Nat)
    (hwf : htWF hash t) :
    htWF hash (htSetVal hash t k v)
    ∧ ((htEntries (htSetVal hash t k v)).map Prod.fst).Perm ((htEntries t).map Prod.fst)
    ∧ (htSetVal hash t k v).used = t.used
    ∧ (htSetVal hash t k v).table.length = t.table.length := by
  by_cases hi : bucketIdx hash t k < t.table.length
  · have hset := flatten_set_perm t.table (bucketIdx hash t k)
      (chainSetVal k v (t.table.getD (bucketIdx hash t k) [])) hi
    have hget := flatten_getD_set_perm t.table (bucketIdx hash t k)
    have hkeys : ((htEntries (htSetVal hash t k v)).map Prod.fst).Perm
        ((htEntries t).map Prod.fst) := by
      have s1 := hset.map Prod.fst
      have s2 := hget.map Prod.fst
      rw [List.map_append, chainSetVal_keys] at s1
      rw [List.map_append] at s2
      exact s1.trans s2.symm
    refine ⟨⟨?_, ?_⟩, hkeys, rfl, List.length_set _ _ _⟩
    · intro j hj x hx
      simp only [htSetVal] at hj hx ⊢
      rw [List.length_set] at hj ⊢
      rcases mem_getD_set hx with ⟨rfl, hx2⟩ | hx2
      · obtain ⟨e, he, hke⟩ := List.mem_map.1 (chainSetVal_mem hx2)
        have := hwf.1 _ hj e he
        rw [hke] at this
        exact this
      · exact hwf.1 j hj x hx2
    · show t.used = _
      have h1 := hkeys.length_eq
      rw [List.length_map, List.length_map] at h1
      rw [hwf.2]
      omega
  · have heq : htSetVal hash t k v = t := by
      unfold htSetVal
      rw [List.getD_eq_default _ _ (by omega), List.set_eq_of_length_le (by omega)]
    rw [heq]
    exact ⟨hwf, List.Perm.refl _, rfl, rfl⟩

theorem dictSetValAt_spec {hash : Nat → Nat} {d : dict} (k : Nat) (v : Option Nat)
    (hwf : dictWF hash d) :
    dictWF hash (dictSetValAt hash d k v)
    ∧ dictSize (dictSetValAt hash d k v) = dictSize d
    ∧ (dictSetValAt hash d k v).iterators = d.iterators := by
  unfold dictSetValAt
  by_cases h0 : (htFind hash d.ht0 k).isSome = true
  · rw [if_pos h0]
    obtain ⟨s1, s2, s3, s4⟩ := @htSetVal_spec hash d.ht0 k v hwf.1
    refine ⟨⟨s1, hwf.2.1, ?_, hwf.2.2.2.1, hwf.2.2.2.2⟩, ?_, rfl⟩
    · unfold dict.keys dict.entries
      have hk := hwf.2.2.1
      unfold dict.keys dict.entries at hk
      rw [List.map_append] at hk ⊢
      have hp := List.Perm.append s2 (List.Perm.refl ((htEntries d.ht1).map Prod.fst))
      exact hp.symm.nodup hk
    · unfold dictSize
      simp only
      rw [s3]
  · rw [if_neg h0]
    by_cases hreh : dictIsRehashing d
    · rw [if_pos hreh]
      obtain ⟨s1, s2, s3, s4⟩ := @htSetVal_spec hash d.ht1 k v hwf.2.1
      have hreh2 := dictIsRehashing_iff.1 hreh
      refine ⟨⟨hwf.1, s1, ?_, ?_, ?_⟩, ?_, rfl⟩
      · unfold dict.keys dict.entries
        have hk := hwf.2.2.1
        unfold dict.keys dict.entries at hk
        rw [List.map_append] at hk ⊢
        have hp := List.Perm.append (List.Perm.refl ((htEntries d.ht0).map Prod.fst)) s2
        exact hp.symm.nodup hk
      · intro hc
        exact absurd hc hreh2
      · intro _
        refine ⟨(hwf.2.2.2.2 hreh2).1, ?_⟩
        rw [s4]
        exact (hwf.2.2.2.2 hreh2).2
      · unfold dictSize
        simp only
        rw [s3]
    · rw [if_neg hreh]
      exact ⟨hwf, rfl, rfl⟩

theorem dictReplace_spec {hash : Nat → Nat} {d : dict} (hwf : dictWF hash d) (k v : Nat) :
    dictWF hash (dictReplace hash d k v).1
    ∧ ((dictReplace hash d k v).2 = true →
        dictSize (dictReplace hash d k v).1 = dictSize d + 1)
    ∧ ((dictReplace hash d k v).2 = false →
        dictSize (dictReplace hash d k v).1 = dictSize d) := by
  obtain ⟨a1, a2, a3, a4⟩ := dictAdd_spec hwf k v
  simp only [dictReplace]
  by_cases hb : (dictAdd hash d k v).2 = true
  · rw [if_pos hb]
    exact ⟨a1, fun _ => (a2 hb).2, fun hc => by simp at hc⟩
  · have hb2 : (dictAdd hash d k v).2 = false := by
      cases hc : (dictAdd hash d k v).2
      · rfl
      · exact absurd hc hb
    rw [if_neg hb]
    obtain ⟨hp, hs⟩ := a3 hb2
    obtain ⟨s1, s2, s3⟩ := dictSetValAt_spec k (some v) a1
    refine ⟨s1, ?_, fun _ => ?_⟩
    · intro hc
      exact Bool.noConfusion hc
    · rw [s2, hs]

theorem dictCreate_WF (hash : Nat → Nat) (cr : Bool) : dictWF hash (dictCreate cr) := by
  refine ⟨htWF_empty hash, htWF_empty hash, ?_, fun _ => rfl, fun hc => absurd rfl hc⟩
  unfold dict.keys dict.entries htEntries dictCreate dictht.empty
  simp

theorem rehashNsteps_pres {hash : Nat → Nat} (m : Nat) :
    ∀ {d : dict}, dictWF hash d →
      dictWF hash (rehashNsteps hash m d)
      ∧ (rehashNsteps hash m d).entries.Perm d.entries := by
  induction m with
  | zero =>
    intro d hwf
    unfold rehashNsteps
    rw [Function.iterate_zero_apply]
    exact ⟨hwf, List.Perm.refl _⟩
  | succ m ih =>
    intro d hwf
    unfold rehashNsteps
    rw [Function.iterate_succ_apply]
    obtain ⟨r1, r2, _, _, _⟩ := dictRehash_pres hwf 1
    obtain ⟨i1, i2⟩ := ih r1
    unfold rehashNsteps at i1 i2
    exact ⟨i1, i2.trans r2⟩

theorem insertNewEntry_rehashidx (hash : Nat → Nat) (d : dict) (k : Nat)
    (val : Option Nat) : (insertNewEntry hash d k val).rehashidx = d.rehashidx := by
  unfold insertNewEntry
  split <;> rfl

theorem insertNewEntry_sizes (hash : Nat → Nat) (d : dict) (k : Nat) (val : Option Nat) :
    (insertNewEntry hash d k val).ht0.size = d.ht0.size
    ∧ (insertNewEntry hash d k val).ht1.size = d.ht1.size := by
  unfold insertNewEntry htInsertEntry dictht.size
  split <;> simp [List.length_set]

theorem dictExpandIfNeeded_of_rehashing {d : dict} (h : dictIsRehashing d = true) :
    dictExpandIfNeeded d = d := by
  simp only [dictExpandIfNeeded]
  rw [if_pos h]

theorem htDelete_size (hash : Nat → Nat) (t : dictht) (k : Nat) :
    (htDelete hash t k).1.table.length = t.table.length := by
  simp only [htDelete]
  split
  · exact List.length_set _ _ _
  · rfl

theorem dictGenericDelete_geometry {hash : Nat → Nat} {d : dict} (k : Nat)
    (hstep : stepIfRehashing hash d = d) :
    (dictGenericDelete hash d k).1.rehashidx = d.rehashidx
    ∧ (dictGenericDelete hash d k).1.ht0.size = d.ht0.size
    ∧ (dictGenericDelete hash d k).1.ht1.size = d.ht1.size := by
  simp only [dictGenericDelete]
  rw [hstep]
  by_cases h0 : (htDelete hash d.ht0 k).2 = true
  · rw [if_pos h0]
    exact ⟨rfl, htDelete_size hash d.ht0 k, rfl⟩
  · rw [if_neg h0]
    by_cases hreh : dictIsRehashing d = true
    · rw [if_pos hreh]
      by_cases h1 : (htDelete hash d.ht1 k).2 = true
      · rw [if_pos h1]
        exact ⟨rfl, rfl, htDelete_size hash d.ht1 k⟩
      · rw [if_neg h1]
        exact ⟨rfl, rfl, rfl⟩
    · rw [if_neg hreh]
      exact ⟨rfl, rfl, rfl⟩

theorem dictSetValAt_geometry (hash : Nat → Nat) (d : dict) (k : Nat) (v : Option Nat) :
    (dictSetValAt hash d k v).rehashidx = d.rehashidx
    ∧ (dictSetValAt hash d k v).ht0.size = d.ht0.size
    ∧ (dictSetValAt hash d k v).ht1.size = d.ht1.size := by
  unfold dictSetValAt htSetVal dictht.size
  split
  · exact ⟨rfl, by simp [List.length_set], rfl⟩
  · split
    · exact ⟨rfl, rfl, by simp [List.length_set]⟩
    · exact ⟨rfl, rfl, rfl⟩

theorem dictAdd_geometry {hash : Nat → Nat} {d : dict} (k v : Nat)
    (hstep : stepIfRehashing hash d = d) (hreh : dictIsRehashing d = true) :
    (dictAdd hash d k v).1.rehashidx = d.rehashidx
    ∧ (dictAdd hash d k v).1.ht0.size = d.ht0.size
    ∧ (dictAdd hash d k v).1.ht1.size = d.ht1.size := by
  simp only [dictAdd, dictAddRawCore]
  rw [hstep]
  by_cases hf : (dictFind hash d k).isSome = true
  · rw [if_pos hf]
    exact ⟨rfl, rfl, rfl⟩
  · rw [if_neg hf, dictExpandIfNeeded_of_rehashing hreh]
    exact ⟨insertNewEntry_rehashidx hash d k (some v),
      (insertNewEntry_sizes hash d k (some v)).1,
      (insertNewEntry_sizes hash d k (some v)).2⟩

/-- C2: for every key that has been added, dictFind succeeds (returns the
key's entry) immediately after the add (m = 0) and after any number m of
intervening rehash steps; the proof goes through dictFind probing the
primary table's bucket first and then, while rehashing, the secondary
table's bucket, so the entry is found in whichever table currently holds
it. -/
theorem dictFind_after_add_and_rehash (hash : Nat → Nat) (d : dict) (k v m : Nat)
    (hwf : dictWF hash d) (hok : (dictAdd hash d k v).2 = true) :
    dictFind hash (rehashNsteps hash m (dictAdd hash d k v).1) k = some (k, some v) := by
  obtain ⟨a1, a2, _, _⟩ := dictAdd_spec hwf k v
  obtain ⟨hp, _⟩ := a2 hok
  obtain ⟨w1, w2⟩ := rehashNsteps_pres m a1
  exact dictFind_complete w1 ((w2.trans hp).mem_iff.2 (List.mem_cons_self _ _)) rfl

theorem dictFind_after_add_and_rehash_witness :
    dictWF id (dictCreate true)
    ∧ (dictAdd id (dictCreate true) 1 42).2 = true
    ∧ dictFind id (rehashNsteps id 3 (dictAdd id (dictCreate true) 1 42).1) 1
        = some (1, some 42) :=
  ⟨by decide, by decide,
    dictFind_after_add_and_rehash id (dictCreate true) 1 42 3 (by decide) (by decide)⟩

/-- C3: for every sequence of Add, Delete and Replace operations (with
arbitrary interleaved rehash progress) starting from a fresh dictionary, the
reported size dictSize, which is the sum of the used counts of both bucket
tables, equals the number of entries successfully added minus the number
successfully deleted at every point of the run. -/
theorem dictSize_accounting (hash : Nat → Nat) (cr : Bool) (ops : List dictOp) :
    dictSize (runOps hash ops (dictCreate cr, 0, 0)).1
      + (runOps hash ops (dictCreate cr, 0, 0)).2.2
      = (runOps hash ops (dictCreate cr, 0, 0)).2.1 := by
  suffices h : ∀ (ops : List dictOp) (d : dict) (a x : Nat), dictWF hash d →
      dictSize d + x = a →
      dictSize (runOps hash ops (d, a, x)).1 + (runOps hash ops (d, a, x)).2.2
        = (runOps hash ops (d, a, x)).2.1 by
    exact h ops (dictCreate cr) 0 0 (dictCreate_WF hash cr) rfl
  intro ops
  induction ops with
  | nil =>
    intro d a x _ hinv
    simpa [runOps] using hinv
  | cons op ops ih =>
    intro d a x hwf hinv
    cases op with
    | add k v =>
      obtain ⟨a1, a2, a3, _⟩ := dictAdd_spec hwf k v
      show dictSize (runOps hash ops ((dictAdd hash d k v).1,
          a + (if (dictAdd hash d k v).2 then 1 else 0), x)).1 + _ = _
      apply ih _ _ _ a1
      cases hb : (dictAdd hash d k v).2
      · have hs := (a3 hb).2
        show dictSize (dictAdd hash d k v).1 + x = a + 0
        omega
      · have hs := (a2 hb).2
        show dictSize (dictAdd hash d k v).1 + x = a + 1
        omega
    | del k =>
      obtain ⟨b1, b2, b3, b4⟩ := dictDelete_spec hwf k
      show dictSize (runOps hash ops ((dictDelete hash d k).1, a,
          x + (if (dictDelete hash d k).2 then 1 else 0))).1 + _ = _
      apply ih _ _ _ b1
      cases hb : (dictDelete hash d k).2
      · have heq := b3 hb
        have hsz : dictSize (dictGenericDelete hash d k).1 = dictSize d := by
          rw [heq]
          exact (stepIfRehashing_pres hwf).2.2.1
        show dictSize (dictGenericDelete hash d k).1 + (x + 0) = a
        omega
      · obtain ⟨_, hsz⟩ := b2 hb
        show dictSize (dictGenericDelete hash d k).1 + (x + 1) = a
        omega
    | repl k v =>
      obtain ⟨r1, r2, r3⟩ := dictReplace_spec hwf k v
      show dictSize (runOps hash ops ((dictReplace hash d k v).1,
          a + (if (dictReplace hash d k v).2 then 1 else 0), x)).1 + _ = _
      apply ih _ _ _ r1
      cases hb : (dictReplace hash d k v).2
      · have hs := r3 hb
        show dictSize (dictReplace hash d k v).1 + x = a + 0
        omega
      · have hs := r2 hb
        show dictSize (dictReplace hash d k v).1 + x = a + 1
        omega
    | rehash n =>
      obtain ⟨p1, p2, p3, _, _⟩ := dictRehash_pres hwf n
      show dictSize (runOps hash ops ((dictRehash hash d n).1, a, x)).1 + _ = _
      apply ih _ _ _ p1
      omega

/-- C4: for a rehashing dictionary and n > 0, a single dictRehash call
migrates at most n non-empty buckets and examines at most n*10 buckets in
total (skipped empty buckets do not count against n but do count against the
n*10 budget); and when the call leaves the primary table empty, the
secondary table becomes the primary, the secondary slot is reset (the old
array is dropped, which the model cannot observe further), the rehash cursor
resets to -1 and the call reports the rehash complete. -/
theorem dictRehash_bounded (hash : Nat → Nat) (d : dict) (n : Nat)
    (hreh : dictIsRehashing d = true) (hn : 0 < n) :
    (rehashGo hash (10 * n) n d).2.1 ≤ n
    ∧ (rehashGo hash (10 * n) n d).2.2 ≤ 10 * n
    ∧ ((rehashGo hash (10 * n) n d).1.ht0.used = 0 →
        (dictRehash hash d n).1.ht0 = (rehashGo hash (10 * n) n d).1.ht1
        ∧ (dictRehash hash d n).1.ht1 = dictht.empty
        ∧ (dictRehash hash d n).1.rehashidx = -1
        ∧ (dictRehash hash d n).2 = false) := by
  obtain ⟨c1, c2⟩ := rehashGo_counts hash (10 * n) n d
  refine ⟨c1, c2, ?_⟩
  intro hu
  have heq : dictRehash hash d n
      = (dict.mk (rehashGo hash (10 * n) n d).1.ht1 dictht.empty (-1)
          (rehashGo hash (10 * n) n d).1.iterators
          (rehashGo hash (10 * n) n d).1.canResize, false) := by
    simp only [dictRehash, if_pos hreh]
    rw [if_pos hu]
  rw [heq]
  exact ⟨rfl, rfl, rfl, rfl⟩

theorem dictRehash_bounded_witness :
    dictIsRehashing (⟨⟨[[(0, some 10)], [], [], []], 1⟩,
        ⟨List.replicate 8 [], 0⟩, 0, 0, true⟩ : dict) = true
    ∧ 0 < 1
    ∧ (rehashGo id (10 * 1) 1 ⟨⟨[[(0, some 10)], [], [], []], 1⟩,
        ⟨List.replicate 8 [], 0⟩, 0, 0, true⟩).2.1 ≤ 1
    ∧ (dictRehash id ⟨⟨[[(0, some 10)], [], [], []], 1⟩,
        ⟨List.replicate 8 [], 0⟩, 0, 0, true⟩ 1).1.rehashidx = -1 :=
  ⟨by decide, by decide,
    (dictRehash_bounded id ⟨⟨[[(0, some 10)], [], [], []], 1⟩,
      ⟨List.replicate 8 [], 0⟩, 0, 0, true⟩ 1 (by decide) (by decide)).1,
    ((dictRehash_bounded id ⟨⟨[[(0, some 10)], [], [], []], 1⟩,
      ⟨List.replicate 8 [], 0⟩, 0, 0, true⟩ 1 (by decide) (by decide)).2.2 (by decide)).2.2.1⟩

/-- C5: on a well-formed dictionary that is not rehashing, with resizing
enabled and load used >= size on an initialized primary table, adding an
absent key triggers an expansion before the insertion completes: the add
succeeds, the resulting dictionary is rehashing (rehash cursor not -1) and
its size is the old size plus one. -/
theorem dictAdd_triggers_expand (hash : Nat → Nat) (d : dict) (k v : Nat)
    (hwf : dictWF hash d) (hreh : dictIsRehashing d = false)
    (hcr : d.canResize = true) (hszpos : 0 < d.ht0.size)
    (hload : d.ht0.size ≤ d.ht0.used) (habs : dictFind hash d k = none) :
    (dictAdd hash d k v).2 = true
    ∧ dictIsRehashing (dictAdd hash d k v).1 = true
    ∧ dictSize (dictAdd hash d k v).1 = dictSize d + 1 := by
  have hreh2 : ¬(dictIsRehashing d = true) := by
    rw [hreh]
    simp
  have hstep : stepIfRehashing hash d = d := by
    unfold stepIfRehashing
    rw [if_neg hreh2]
  obtain ⟨a1, a2, a3, a4⟩ := dictAdd_spec hwf k v
  have hok : (dictAdd hash d k v).2 = true := by
    cases hb : (dictAdd hash d k v).2
    · exfalso
      obtain ⟨e, he, hk⟩ := a4.1 hb
      exact (dictFind_eq_none_iff hwf).1 habs e he hk
    · rfl
  have hnone : ¬((dictFind hash d k).isSome = true) := by
    rw [habs]
    simp
  have hres : (dictAdd hash d k v).1
      = insertNewEntry hash (dictExpandIfNeeded d) k (some v) := by
    simp only [dictAdd, dictAddRawCore]
    rw [hstep, if_neg hnone]
  obtain ⟨ht1, ht2⟩ := dictExpandIfNeeded_triggers hreh2 hszpos hcr hload
  refine ⟨hok, ?_, (a2 hok).2⟩
  rw [hres]
  rw [dictIsRehashing_iff]
  rw [insertNewEntry_rehashidx, ht1]
  omega

theorem dictAdd_triggers_expand_witness :
    dictWF id (⟨⟨[[(0, some 10)], [(1, some 11)], [(2, some 12)], [(3, some 13)]], 4⟩,
        dictht.empty, -1, 0, true⟩ : dict)
    ∧ (dictAdd id ⟨⟨[[(0, some 10)], [(1, some 11)], [(2, some 12)], [(3, some 13)]], 4⟩,
        dictht.empty, -1, 0, true⟩ 4 9).2 = true
    ∧ dictIsRehashing (dictAdd id ⟨⟨[[(0, some 10)], [(1, some 11)], [(2, some 12)],
        [(3, some 13)]], 4⟩, dictht.empty, -1, 0, true⟩ 4 9).1 = true
    ∧ dictSize (dictAdd id ⟨⟨[[(0, some 10)], [(1, some 11)], [(2, some 12)],
        [(3, some 13)]], 4⟩, dictht.empty, -1, 0, true⟩ 4 9).1 = 5
    ∧ (rehashNsteps id 3 (dictAdd id ⟨⟨[[(0, some 10)], [(1, some 11)], [(2, some 12)],
        [(3, some 13)]], 4⟩, dictht.empty, -1, 0, true⟩ 4 9).1).rehashidx ≠ -1
    ∧ (rehashNsteps id 4 (dictAdd id ⟨⟨[[(0, some 10)], [(1, some 11)], [(2, some 12)],
        [(3, some 13)]], 4⟩, dictht.empty, -1, 0, true⟩ 4 9).1).rehashidx = -1 := by
  refine ⟨by decide, ?_, ?_, by decide, by decide, by decide⟩
  · exact (dictAdd_triggers_expand id _ 4 9 (by decide) (by decide) (by decide)
      (by decide) (by decide) (by decide)).1
  · exact (dictAdd_triggers_expand id _ 4 9 (by decide) (by decide) (by decide)
      (by decide) (by decide) (by decide)).2.1

/-- C6: dictReplaceRaw, the AddOrGetExisting primitive, returns the existing
entry and performs no mutation at all when the key is present, and otherwise
returns the newly linked entry carrying the given key and an unset value
(modelled as none), already linked into the resulting dictionary for the
caller to populate. -/
theorem dictReplaceRaw_addOrGetExisting (hash : Nat → Nat) (d : dict) (k : Nat)
    (hwf : dictWF hash d) :
    (∀ e, dictFind hash d k = some e → dictReplaceRaw hash d k = (d, e))
    ∧ (dictFind hash d k = none →
        (dictReplaceRaw hash d k).2 = (k, none)
        ∧ (k, (none : Option Nat)) ∈ (dictReplaceRaw hash d k).1.entries) := by
  constructor
  · intro e hf
    unfold dictReplaceRaw
    rw [hf]
  · intro hf
    have hr : dictReplaceRaw hash d k
        = ((dictAddRaw hash d k).1, (dictAddRaw hash d k).2.getD (k, none)) := by
      unfold dictReplaceRaw
      rw [hf]
    obtain ⟨a1, a2, a3, a4⟩ := dictAddRawCore_spec hwf k none
    have hnotnone : ¬((dictAddRawCore hash d k none).2 = none) := by
      intro hc
      obtain ⟨e, he, hk⟩ := a4.1 hc
      exact (dictFind_eq_none_iff hwf).1 hf e he hk
    have hsome : (dictAddRawCore hash d k none).2.isSome = true := by
      cases hc : (dictAddRawCore hash d k none).2
      · exact absurd hc hnotnone
      · rfl
    obtain ⟨heq, hperm, _⟩ := a3 hsome
    constructor
    · rw [hr]
      show (dictAddRaw hash d k).2.getD (k, none) = (k, none)
      unfold dictAddRaw
      rw [heq]
      rfl
    · rw [hr]
      show (k, (none : Option Nat)) ∈ (dictAddRaw hash d k).1.entries
      unfold dictAddRaw
      exact hperm.mem_iff.2 (List.mem_cons_self _ _)

theorem dictReplaceRaw_addOrGetExisting_witness :
    dictWF id (⟨⟨[[(0, some 10)], [(1, some 11)], [(2, some 12)], [(3, some 13)]], 4⟩,
        dictht.empty, -1, 0, true⟩ : dict)
    ∧ dictFind id ⟨⟨[[(0, some 10)], [(1, some 11)], [(2, some 12)], [(3, some 13)]], 4⟩,
        dictht.empty, -1, 0, true⟩ 2 = some (2, some 12)
    ∧ dictReplaceRaw id ⟨⟨[[(0, some 10)], [(1, some 11)], [(2, some 12)], [(3, some 13)]], 4⟩,
        dictht.empty, -1, 0, true⟩ 2
      = (⟨⟨[[(0, some 10)], [(1, some 11)], [(2, some 12)], [(3, some 13)]], 4⟩,
        dictht.empty, -1, 0, true⟩, (2, some 12))
    ∧ dictFind id ⟨⟨[[(0, some 10)], [(1, some 11)], [(2, some 12)], [(3, some 13)]], 4⟩,
        dictht.empty, -1, 0, true⟩ 7 = none
    ∧ (dictReplaceRaw id ⟨⟨[[(0, some 10)], [(1, some 11)], [(2, some 12)], [(3, some 13)]], 4⟩,
        dictht.empty, -1, 0, true⟩ 7).2 = (7, none)
    ∧ (7, (none : Option Nat)) ∈ (dictReplaceRaw id ⟨⟨[[(0, some 10)], [(1, some 11)],
        [(2, some 12)], [(3, some 13)]], 4⟩, dictht.empty, -1, 0, true⟩ 7).1.entries := by
  refine ⟨by decide, by decide, ?_, by decide, ?_, ?_⟩
  · exact (dictReplaceRaw_addOrGetExisting id _ 2 (by decide)).1 (2, some 12) (by decide)
  · exact ((dictReplaceRaw_addOrGetExisting id _ 7 (by decide)).2 (by decide)).1
  · exact ((dictReplaceRaw_addOrGetExisting id _ 7 (by decide)).2 (by decide)).2

/-- C7 counterexample: on a dictionary in mid-rehash, dictAdd of an already
present key fails but does not leave the dictionary completely unchanged:
the opportunistic rehash step advances the migration, here completing it and
swapping the tables, so the primary table size changes from 4 to 8. -/
theorem dictAdd_keyexists_mutates :
    (dictFind id (⟨⟨[[(0, some 10)], [], [], []], 1⟩,
        ⟨List.replicate 8 [], 0⟩, 0, 0, true⟩ : dict) 0).isSome = true
    ∧ (dictAdd id ⟨⟨[[(0, some 10)], [], [], []], 1⟩,
        ⟨List.replicate 8 [], 0⟩, 0, 0, true⟩ 0 99).2 = false
    ∧ (dictAdd id ⟨⟨[[(0, some 10)], [], [], []], 1⟩,
        ⟨List.replicate 8 [], 0⟩, 0, 0, true⟩ 0 99).1
      ≠ ⟨⟨[[(0, some 10)], [], [], []], 1⟩, ⟨List.replicate 8 [], 0⟩, 0, 0, true⟩ := by
  decide

/-- C7 (amended): dictAdd of a present key fails with KeyExists and leaves
the stored content unchanged: the size is unchanged and every lookup,
including FetchValue of the key, returns exactly what it returned before;
the only possible state change is the opportunistic rehash step advancing
migration. -/
theorem dictAdd_keyexists_content_preserved (hash : Nat → Nat) (d : dict) (k v : Nat)
    (hwf : dictWF hash d) (hpresent : (dictFind hash d k).isSome = true) :
    (dictAdd hash d k v).2 = false
    ∧ dictSize (dictAdd hash d k v).1 = dictSize d
    ∧ (∀ k2, dictFind hash (dictAdd hash d k v).1 k2 = dictFind hash d k2)
    ∧ dictFetchValue hash (dictAdd hash d k v).1 k = dictFetchValue hash d k := by
  obtain ⟨a1, a2, a3, a4⟩ := dictAdd_spec hwf k v
  have hfalse : (dictAdd hash d k v).2 = false := by
    rw [a4]
    obtain ⟨e, he⟩ := Option.isSome_iff_exists.1 hpresent
    obtain ⟨hm, hk⟩ := dictFind_sound he
    exact ⟨e, hm, hk⟩
  obtain ⟨hp, hs⟩ := a3 hfalse
  have hfind : ∀ k2, dictFind hash (dictAdd hash d k v).1 k2 = dictFind hash d k2 :=
    fun k2 => dictFind_congr hwf a1 hp k2
  refine ⟨hfalse, hs, hfind, ?_⟩
  unfold dictFetchValue
  rw [hfind k]

theorem dictAdd_keyexists_content_preserved_witness :
    dictWF id (⟨⟨[[(0, some 10)], [], [], []], 1⟩,
        ⟨List.replicate 8 [], 0⟩, 0, 0, true⟩ : dict)
    ∧ (dictFind id ⟨⟨[[(0, some 10)], [], [], []], 1⟩,
        ⟨List.replicate 8 [], 0⟩, 0, 0, true⟩ 0).isSome = true
    ∧ (dictAdd id ⟨⟨[[(0, some 10)], [], [], []], 1⟩,
        ⟨List.replicate 8 [], 0⟩, 0, 0, true⟩ 0 99).2 = false
    ∧ dictFetchValue id (dictAdd id ⟨⟨[[(0, some 10)], [], [], []], 1⟩,
        ⟨List.replicate 8 [], 0⟩, 0, 0, true⟩ 0 99).1 0
      = dictFetchValue id ⟨⟨[[(0, some 10)], [], [], []], 1⟩,
        ⟨List.replicate 8 [], 0⟩, 0, 0, true⟩ 0 := by
  refine ⟨by decide, by decide, ?_, ?_⟩
  · exact (dictAdd_keyexists_content_preserved id _ 0 99 (by decide) (by decide)).1
  · exact (dictAdd_keyexists_content_preserved id _ 0 99 (by decide) (by decide)).2.2.2

/-- C8 counterexample: on a dictionary in mid-rehash, Delete of an absent
key fails with KeyNotFound but is not free of effect on the dictionary
state: the opportunistic rehash step advances the migration, here completing
it and swapping the tables, for both dictDelete and dictDeleteNoFree. -/
theorem dictDelete_absent_mutates :
    (dictFind id (⟨⟨[[(0, some 10)], [], [], []], 1⟩,
        ⟨List.replicate 8 [], 0⟩, 0, 0, true⟩ : dict) 7) = none
    ∧ (dictDelete id ⟨⟨[[(0, some 10)], [], [], []], 1⟩,
        ⟨List.replicate 8 [], 0⟩, 0, 0, true⟩ 7).2 = false
    ∧ (dictDelete id ⟨⟨[[(0, some 10)], [], [], []], 1⟩,
        ⟨List.replicate 8 [], 0⟩, 0, 0, true⟩ 7).1
      ≠ ⟨⟨[[(0, some 10)], [], [], []], 1⟩, ⟨List.replicate 8 [], 0⟩, 0, 0, true⟩
    ∧ (dictDeleteNoFree id ⟨⟨[[(0, some 10)], [], [], []], 1⟩,
        ⟨List.replicate 8 [], 0⟩, 0, 0, true⟩ 7).1
      ≠ ⟨⟨[[(0, some 10)], [], [], []], 1⟩, ⟨List.replicate 8 [], 0⟩, 0, 0, true⟩ := by
  decide

/-- C8 (amended): Delete of an absent key fails with KeyNotFound for both
dictDelete and dictDeleteNoFree and leaves the stored content unchanged
(same size, every lookup unchanged); deleting the same key twice in a row
therefore returns KeyNotFound the second time as well.  The only possible
state change of a failing delete is the opportunistic rehash step advancing
migration. -/
theorem dictDelete_absent_content_preserved (hash : Nat → Nat) (d : dict) (k : Nat)
    (hwf : dictWF hash d) (habsent : dictFind hash d k = none) :
    (dictDelete hash d k).2 = false
    ∧ (dictDeleteNoFree hash d k).2 = false
    ∧ dictSize (dictDelete hash d k).1 = dictSize d
    ∧ (∀ k2, dictFind hash (dictDelete hash d k).1 k2 = dictFind hash d k2)
    ∧ (dictDelete hash (dictDelete hash d k).1 k).2 = false := by
  obtain ⟨b1, b2, b3, b4⟩ := dictDelete_spec hwf k
  have habs2 : ∀ e ∈ d.entries, e.1 ≠ k := (dictFind_eq_none_iff hwf).1 habsent
  have hfalse : (dictGenericDelete hash d k).2 = false := b4.2 habs2
  have heq : (dictGenericDelete hash d k).1 = stepIfRehashing hash d := b3 hfalse
  obtain ⟨s1, s2, s3, _, _⟩ := @stepIfRehashing_pres hash d hwf
  have hwfd : dictWF hash (dictGenericDelete hash d k).1 := b1
  have hpermd : (dictGenericDelete hash d k).1.entries.Perm d.entries := by
    rw [heq]
    exact s2
  have hfindpres : ∀ k2, dictFind hash (dictGenericDelete hash d k).1 k2
      = dictFind hash d k2 := fun k2 => dictFind_congr hwf hwfd hpermd k2
  refine ⟨hfalse, hfalse, ?_, hfindpres, ?_⟩
  · show dictSize (dictGenericDelete hash d k).1 = dictSize d
    rw [heq]
    exact s3
  · obtain ⟨c1, c2, c3, c4⟩ := dictDelete_spec hwfd k
    apply c4.2
    intro e he hk
    exact habs2 e (hpermd.mem_iff.1 he) hk

theorem dictDelete_absent_content_preserved_witness :
    dictWF id (⟨⟨[[(0, some 10)], [], [], []], 1⟩,
        ⟨List.replicate 8 [], 0⟩, 0, 0, true⟩ : dict)
    ∧ dictFind id ⟨⟨[[(0, some 10)], [], [], []], 1⟩,
        ⟨List.replicate 8 [], 0⟩, 0, 0, true⟩ 7 = none
    ∧ (dictDelete id ⟨⟨[[(0, some 10)], [], [], []], 1⟩,
        ⟨List.replicate 8 [], 0⟩, 0, 0, true⟩ 7).2 = false
    ∧ (dictDelete id (dictDelete id ⟨⟨[[(0, some 10)], [], [], []], 1⟩,
        ⟨List.replicate 8 [], 0⟩, 0, 0, true⟩ 7).1 7).2 = false := by
  refine ⟨by decide, by decide, ?_, ?_⟩
  · exact (dictDelete_absent_content_preserved id _ 7 (by decide) (by decide)).1
  · exact (dictDelete_absent_content_preserved id _ 7 (by decide) (by decide)).2.2.2.2

/-- C9 counterexample: with a live safe iterator (iterator counter nonzero),
an Add into a full table still triggers an expansion that allocates the
secondary table, so the table geometry does change as a side effect of Add
while the iterator is live. -/
theorem safeIterator_add_changes_geometry :
    (dictGetSafeIterator ⟨⟨[[(0, some 10)], [(1, some 11)], [(2, some 12)],
        [(3, some 13)]], 4⟩, dictht.empty, -1, 0, true⟩).iterators ≠ 0
    ∧ (dictAdd id (dictGetSafeIterator ⟨⟨[[(0, some 10)], [(1, some 11)], [(2, some 12)],
        [(3, some 13)]], 4⟩, dictht.empty, -1, 0, true⟩) 4 9).1.ht1.size
      ≠ (dictGetSafeIterator ⟨⟨[[(0, some 10)], [(1, some 11)], [(2, some 12)],
        [(3, some 13)]], 4⟩, dictht.empty, -1, 0, true⟩).ht1.size := by
  decide

/-- C9 (amended): while the iterator counter is nonzero no operation performs
an opportunistic rehash step, and during an in-progress rehash the table
geometry (both table sizes and the rehash cursor) is unchanged by Add,
Delete, DeleteNoFree and Replace (Find is pure by construction); when no
rehash is in progress, an insertion into a full table may still start an
expansion that allocates the secondary table. -/
theorem iterators_pause_rehash_step (hash : Nat → Nat) (d : dict) (k v : Nat)
    (hit : d.iterators ≠ 0) (hreh : dictIsRehashing d = true) :
    ((dictAdd hash d k v).1.rehashidx = d.rehashidx
      ∧ (dictAdd hash d k v).1.ht0.size = d.ht0.size
      ∧ (dictAdd hash d k v).1.ht1.size = d.ht1.size)
    ∧ ((dictDelete hash d k).1.rehashidx = d.rehashidx
      ∧ (dictDelete hash d k).1.ht0.size = d.ht0.size
      ∧ (dictDelete hash d k).1.ht1.size = d.ht1.size)
    ∧ ((dictDeleteNoFree hash d k).1.rehashidx = d.rehashidx)
    ∧ ((dictReplace hash d k v).1.rehashidx = d.rehashidx
      ∧ (dictReplace hash d k v).1.ht0.size = d.ht0.size
      ∧ (dictReplace hash d k v).1.ht1.size = d.ht1.size) := by
  have hstep : stepIfRehashing hash d = d := stepIfRehashing_of_iterators hit
  obtain ⟨ga1, ga2, ga3⟩ := @dictAdd_geometry hash d k v hstep hreh
  obtain ⟨gd1, gd2, gd3⟩ := @dictGenericDelete_geometry hash d k hstep
  refine ⟨⟨ga1, ga2, ga3⟩, ⟨gd1, gd2, gd3⟩, gd1, ?_⟩
  simp only [dictReplace]
  by_cases hb : (dictAdd hash d k v).2 = true
  · rw [if_pos hb]
    exact ⟨ga1, ga2, ga3⟩
  · rw [if_neg hb]
    obtain ⟨gs1, gs2, gs3⟩ := dictSetValAt_geometry hash (dictAdd hash d k v).1 k (some v)
    exact ⟨gs1.trans ga1, gs2.trans ga2, gs3.trans ga3⟩

theorem iterators_pause_rehash_step_witness :
    (⟨⟨[[(0, some 10)], [], [], []], 1⟩, ⟨List.replicate 8 [], 0⟩, 0, 1, true⟩
        : dict).iterators ≠ 0
    ∧ dictIsRehashing (⟨⟨[[(0, some 10)], [], [], []], 1⟩,
        ⟨List.replicate 8 [], 0⟩, 0, 1, true⟩ : dict) = true
    ∧ (dictAdd id ⟨⟨[[(0, some 10)], [], [], []], 1⟩,
        ⟨List.replicate 8 [], 0⟩, 0, 1, true⟩ 4 9).1.rehashidx
      = (⟨⟨[[(0, some 10)], [], [], []], 1⟩,
        ⟨List.replicate 8 [], 0⟩, 0, 1, true⟩ : dict).rehashidx
    ∧ (dictDelete id ⟨⟨[[(0, some 10)], [], [], []], 1⟩,
        ⟨List.replicate 8 [], 0⟩, 0, 1, true⟩ 0).1.ht0.size
      = (⟨⟨[[(0, some 10)], [], [], []], 1⟩,
        ⟨List.replicate 8 [], 0⟩, 0, 1, true⟩ : dict).ht0.size := by
  refine ⟨by decide, by decide, ?_, ?_⟩
  · exact (iterators_pause_rehash_step id _ 4 9 (by decide) (by decide)).1.1
  · exact (iterators_pause_rehash_step id _ 0 9 (by decide) (by decide)).2.1.2.1

/-- C10: dictRehashMilliseconds performs its migration as repeated full
dictRehash increments with n = 100, consulting the clock oracle only
between increments and never abandoning an increment partway: for every
fuel bound the result equals some whole number m of successive
dictRehash-100 calls, and the reported count is exactly m. -/
theorem dictRehashMilliseconds_increments (hash : Nat → Nat) (expired : Nat → Bool)
    (d : dict) (fuel : Nat) :
    ∃ m, m ≤ fuel
      ∧ dictRehashMilliseconds hash expired d fuel
        = (Nat.iterate (fun x => (dictRehash hash x 100).1) m d, m) := by
  suffices h : ∀ (fuel : Nat) (d : dict) (i : Nat), ∃ m, m ≤ fuel
      ∧ dictRehashMsGo hash expired fuel d i
        = (Nat.iterate (fun x => (dictRehash hash x 100).1) m d, i + m) by
    obtain ⟨m, hm, hmeq⟩ := h fuel d 0
    refine ⟨m, hm, ?_⟩
    unfold dictRehashMilliseconds
    rw [hmeq, Nat.zero_add]
  intro fuel
  induction fuel with
  | zero =>
    intro d i
    exact ⟨0, Nat.le_refl 0, by simp [dictRehashMsGo]⟩
  | succ fuel ih =>
    intro d i
    simp only [dictRehashMsGo]
    by_cases hdone : (dictRehash hash d 100).2 = false
    · rw [if_pos hdone]
      refine ⟨1, by omega, ?_⟩
      rw [Function.iterate_one]
    · rw [if_neg hdone]
      by_cases hexp : expired i = true
      · rw [if_pos hexp]
        refine ⟨1, by omega, ?_⟩
        rw [Function.iterate_one]
      · rw [if_neg hexp]
        obtain ⟨m, hm, hmeq⟩ := ih (dictRehash hash d 100).1 (i + 1)
        refine ⟨m + 1, by omega, ?_⟩
        rw [hmeq, Function.iterate_succ_apply]
        rw [show i + 1 + m = i + (m + 1) from by omega]
